import Mathlib

/-!
EncodingParser: a verification development of `src/main.cpp`

The decoder `to_unicode_values` of `src/main.cpp` is embedded as a pure Lean
function over byte lists.  A `std::string` is a `List Byte`, the output
`std::vector<uint32_t>` is a `List Nat`, and the two exceptions the decoder can
throw are the constructors of `DecodeError`.  Reading a byte outside the buffer
(undefined behaviour in the source) is a third, explicit outcome, so that its
absence is a theorem and not an assumption.
-/

namespace EncodingParser

/-- An 8-bit value: one `char` of the `std::string`, seen through
`static_cast<uint8_t>`. -/
abbrev Byte := Fin 256

/-- The ways a decode can stop without a result.
* `length_error index`: the `std::length_error` of `to_unicode_values`, whose
  message ends in `std::to_string(index)`;
* `logic_error n`: the `std::logic_error` of `add_char`, whose message ends in
  `std::to_string(number_of_bytes)`;
* `out_of_range i`: a read of `fc[i]` with `i` not below the buffer length. -/
inductive DecodeError where
  | length_error (index : Nat)
  | logic_error (number_of_bytes : Nat)
  | out_of_range (index : Nat)
  deriving DecidableEq, Repr

/-- Conversion of a non-negative `int` to `uint32_t`. -/
def to_uint32 (x : Nat) : Nat := x % 4294967296

/-- The source's `nth_bit`: `(c >> bit) & 1`. -/
def nth_bit (c bit : Nat) : Nat := (c >>> bit) &&& 1

/-- The source's `is_ASCII`: `nth_bit(c, 7) == 0`. -/
def is_ASCII (c : Nat) : Bool := nth_bit c 7 == 0

/-- The read `static_cast<uint8_t>(fc[i])`, with the out-of-buffer case made
explicit. -/
def read_byte (fc : List Byte) (i : Nat) : Except DecodeError Nat :=
  match fc[i]? with
  | some b => .ok b.val
  | none => .error (.out_of_range i)

/-- The source's `add_char`: the `switch` on `number_of_bytes`, returning the
vector `values` with the assembled value appended, or the `default:` throw.
The locals `first`, `second`, ... are `uint8_t` holding a value already masked
to 5 or 6 bits, so storing them truncates nothing; the shifts and ors are done
in `int` and the result is converted to `uint32_t` when stored. -/
def add_char (fc : List Byte) (values : List Nat) (index : Nat)
    (current_char : Nat) (number_of_bytes : Nat) : Except DecodeError (List Nat) :=
  let first_byte_mask := 0b00011111
  let following_byte_mask := 0b00111111
  match number_of_bytes with
  | 1 =>
    let first := current_char &&& first_byte_mask
    match read_byte fc (index + 1) with
    | .error e => .error e
    | .ok c1 =>
      let second := c1 &&& following_byte_mask
      .ok (values ++ [to_uint32 ((first <<< 6) ||| second)])
  | 2 =>
    let first := current_char &&& first_byte_mask
    match read_byte fc (index + 1) with
    | .error e => .error e
    | .ok c1 =>
      let second := c1 &&& following_byte_mask
      match read_byte fc (index + 2) with
      | .error e => .error e
      | .ok c2 =>
        let third := c2 &&& following_byte_mask
        let result := to_uint32 ((first <<< 16) ||| (second <<< 12) ||| third)
        .ok (values ++ [result])
  | 3 =>
    let first := current_char &&& first_byte_mask
    match read_byte fc (index + 1) with
    | .error e => .error e
    | .ok c1 =>
      let second := c1 &&& following_byte_mask
      match read_byte fc (index + 2) with
      | .error e => .error e
      | .ok c2 =>
        let third := c2 &&& following_byte_mask
        match read_byte fc (index + 3) with
        | .error e => .error e
        | .ok c3 =>
          let fourth := c3 &&& following_byte_mask
          let result :=
            to_uint32 ((first <<< 22) ||| (second <<< 18) ||| (third <<< 12) ||| fourth)
          .ok (values ++ [result])
  | n => .error (.logic_error n)

/-- The `while (index < file_content.size())` loop of `to_unicode_values`, as a
function of the loop state `(values, index)`.  `index` is a `size_t`; it stays
at most `size() + 3`, so its arithmetic is done in `Nat`.  A thrown exception
is an `.error`, which carries no values. -/
def to_unicode_values.loop (fc : List Byte) (values : List Nat) (index : Nat) :
    Except DecodeError (List Nat) :=
  if index < fc.length then
    match read_byte fc index with
    | .error e => .error e
    | .ok current_char =>
      if is_ASCII current_char then
        to_unicode_values.loop fc (values ++ [to_uint32 current_char]) (index + 1)
      else
        let number_of_bytes :=
          nth_bit current_char 6 + nth_bit current_char 5 + nth_bit current_char 4
        if index + number_of_bytes ≥ fc.length then
          .error (.length_error index)
        else
          match add_char fc values index current_char number_of_bytes with
          | .error e => .error e
          | .ok values1 =>
            to_unicode_values.loop fc values1 (index + (number_of_bytes + 1))
  else
    .ok values
termination_by fc.length - index
decreasing_by
  all_goals simp_wf
  all_goals omega

/-- The source's `to_unicode_values`: the loop started with no values at
`index = 3`. -/
def to_unicode_values (fc : List Byte) : Except DecodeError (List Nat) :=
  to_unicode_values.loop fc [] 3

/-- Standard UTF-8 (RFC 3629) encoding of one scalar value, 1 to 4 bytes.  This
is the encoding named by the doc comment of `to_unicode_values`; it is not code
of `src/main.cpp` and is only used to state what that comment promises. -/
def utf8_encode_scalar (c : Nat) : List Byte :=
  if c < 0x80 then
    [Fin.ofNat c]
  else if c < 0x800 then
    [Fin.ofNat (0xC0 ||| (c >>> 6)), Fin.ofNat (0x80 ||| (c &&& 0x3F))]
  else if c < 0x10000 then
    [Fin.ofNat (0xE0 ||| (c >>> 12)), Fin.ofNat (0x80 ||| ((c >>> 6) &&& 0x3F)),
      Fin.ofNat (0x80 ||| (c &&& 0x3F))]
  else
    [Fin.ofNat (0xF0 ||| (c >>> 18)), Fin.ofNat (0x80 ||| ((c >>> 12) &&& 0x3F)),
      Fin.ofNat (0x80 ||| ((c >>> 6) &&& 0x3F)), Fin.ofNat (0x80 ||| (c &&& 0x3F))]

/-- Standard UTF-8 encoding of a sequence of scalar values. -/
def utf8_encode (cs : List Nat) : List Byte :=
  cs.flatMap utf8_encode_scalar

/-- A Unicode scalar value: at most `0x10FFFF` and not a surrogate. -/
def is_scalar_value (c : Nat) : Bool :=
  decide (c ≤ 0x10FFFF) && !(decide (0xD800 ≤ c) && decide (c ≤ 0xDFFF))

/-- The body of the `while` loop of `to_unicode_values` (source lines 118 to
137), run in a state `(values, index)` that passed the loop condition: the state
after the iteration, or the exception thrown. -/
def to_unicode_values.body (fc : List Byte) (values : List Nat) (index : Nat) :
    Except DecodeError (List Nat × Nat) :=
  match read_byte fc index with
  | .error e => .error e
  | .ok current_char =>
    if is_ASCII current_char then
      .ok (values ++ [to_uint32 current_char], index + 1)
    else
      let number_of_bytes :=
        nth_bit current_char 6 + nth_bit current_char 5 + nth_bit current_char 4
      if index + number_of_bytes ≥ fc.length then
        .error (.length_error index)
      else
        match add_char fc values index current_char number_of_bytes with
        | .error e => .error e
        | .ok values1 => .ok (values1, index + (number_of_bytes + 1))

/-- The `while` loop as at most `fuel` iterations of its body, keeping the final
cursor: `some` of the final state or of the exception, and `none` when `fuel`
iterations were not enough to make the loop condition false. -/
def to_unicode_values.iterate (fc : List Byte) :
    Nat → List Nat → Nat → Option (Except DecodeError (List Nat × Nat))
  | 0, values, index =>
    if index < fc.length then none else some (.ok (values, index))
  | fuel + 1, values, index =>
    if index < fc.length then
      match to_unicode_values.body fc values index with
      | .error e => some (.error e)
      | .ok (values1, index1) => to_unicode_values.iterate fc fuel values1 index1
    else
      some (.ok (values, index))

/-! ## Bits of a byte -/

theorem nth_bit_eq_div_mod (c bit : Nat) : nth_bit c bit = c / 2 ^ bit % 2 := by
  simp [nth_bit, Nat.shiftRight_eq_div_pow, Nat.and_one_is_mod]

theorem nth_bit_le_one (c bit : Nat) : nth_bit c bit ≤ 1 := by
  rw [nth_bit_eq_div_mod]; omega

theorem is_ASCII_iff (c : Nat) : is_ASCII c = true ↔ nth_bit c 7 = 0 := by
  simp [is_ASCII]

theorem is_ASCII_iff_lt (b : Byte) : is_ASCII b.val = true ↔ b.val < 128 := by
  have := b.isLt
  rw [is_ASCII_iff, nth_bit_eq_div_mod]; omega

theorem to_uint32_of_lt {x : Nat} (h : x < 4294967296) : to_uint32 x = x :=
  Nat.mod_eq_of_lt h

theorem to_uint32_byte (b : Byte) : to_uint32 b.val = b.val :=
  to_uint32_of_lt (by have := b.isLt; omega)

/-! ## Reads -/

theorem read_byte_of_getElem? {fc : List Byte} {i : Nat} {b : Byte} (h : fc[i]? = some b) :
    read_byte fc i = .ok b.val := by
  simp [read_byte, h]

theorem read_byte_of_lt {fc : List Byte} {i : Nat} (h : i < fc.length) :
    read_byte fc i = .ok (fc.get ⟨i, h⟩).val := by
  simp [read_byte, List.getElem?_eq_getElem h]

theorem read_byte_congr {fc1 fc2 : List Byte} {i : Nat} (h : fc1[i]? = fc2[i]?) :
    read_byte fc1 i = read_byte fc2 i := by
  simp [read_byte, h]

/-! ## One iteration of the loop -/

theorem loop_done {fc : List Byte} {i : Nat} (values : List Nat) (h : fc.length ≤ i) :
    to_unicode_values.loop fc values i = .ok values := by
  rw [to_unicode_values.loop, if_neg (by omega)]

theorem loop_ascii {fc : List Byte} {i : Nat} {b : Byte} (values : List Nat)
    (hb : fc[i]? = some b) (h7 : nth_bit b.val 7 = 0) :
    to_unicode_values.loop fc values i
      = to_unicode_values.loop fc (values ++ [b.val]) (i + 1) := by
  have hi : i < fc.length := by
    by_contra hc
    rw [List.getElem?_eq_none (by omega)] at hb
    cases hb
  rw [to_unicode_values.loop, if_pos hi, read_byte_of_getElem? hb]
  simp only [(is_ASCII_iff b.val).2 h7, if_true, to_uint32_byte]

theorem loop_truncated {fc : List Byte} {i : Nat} {b : Byte} (values : List Nat)
    (hb : fc[i]? = some b) (h7 : nth_bit b.val 7 ≠ 0)
    (hn : fc.length ≤ i + (nth_bit b.val 6 + nth_bit b.val 5 + nth_bit b.val 4)) :
    to_unicode_values.loop fc values i = .error (.length_error i) := by
  have hi : i < fc.length := by
    by_contra hc
    rw [List.getElem?_eq_none (by omega)] at hb
    cases hb
  have ha : ¬ (is_ASCII b.val = true) := fun h => h7 ((is_ASCII_iff b.val).1 h)
  rw [to_unicode_values.loop, if_pos hi, read_byte_of_getElem? hb]
  simp only [ha, Bool.false_eq_true, if_false, ge_iff_le, hn, if_true]

theorem loop_lead {fc : List Byte} {i : Nat} {b : Byte} (values : List Nat)
    (hb : fc[i]? = some b) (h7 : nth_bit b.val 7 ≠ 0)
    (hn : i + (nth_bit b.val 6 + nth_bit b.val 5 + nth_bit b.val 4) < fc.length) :
    to_unicode_values.loop fc values i
      = match add_char fc values i b.val
            (nth_bit b.val 6 + nth_bit b.val 5 + nth_bit b.val 4) with
        | .error e => .error e
        | .ok values1 =>
          to_unicode_values.loop fc values1
            (i + (nth_bit b.val 6 + nth_bit b.val 5 + nth_bit b.val 4 + 1)) := by
  have hi : i < fc.length := by omega
  have ha : ¬ (is_ASCII b.val = true) := fun h => h7 ((is_ASCII_iff b.val).1 h)
  have hn1 : ¬ (fc.length ≤ i + (nth_bit b.val 6 + nth_bit b.val 5 + nth_bit b.val 4)) := by
    omega
  rw [to_unicode_values.loop, if_pos hi, read_byte_of_getElem? hb]
  simp only [ha, Bool.false_eq_true, if_false, ge_iff_le, hn1]

/-- Case analysis on one iteration, packaged as an induction principle on the
cursor: the loop stops, appends an ASCII byte, throws the length error, or calls
`add_char` and (when that returns) continues `number_of_bytes + 1` further. -/
theorem loop_cases_induct (fc : List Byte) (motive : Nat → Prop)
    (done : ∀ i, fc.length ≤ i → motive i)
    (ascii : ∀ i b, fc[i]? = some b → nth_bit b.val 7 = 0 → motive (i + 1) → motive i)
    (truncated : ∀ i b, fc[i]? = some b → nth_bit b.val 7 ≠ 0 →
      fc.length ≤ i + (nth_bit b.val 6 + nth_bit b.val 5 + nth_bit b.val 4) → motive i)
    (lead : ∀ i b, fc[i]? = some b → nth_bit b.val 7 ≠ 0 →
      i + (nth_bit b.val 6 + nth_bit b.val 5 + nth_bit b.val 4) < fc.length →
      motive (i + (nth_bit b.val 6 + nth_bit b.val 5 + nth_bit b.val 4 + 1)) → motive i) :
    ∀ i, motive i := by
  intro i
  generalize h : fc.length - i = m
  induction m using Nat.strong_induction_on generalizing i with
  | _ m ih =>
    by_cases hi : fc.length ≤ i
    · exact done i hi
    · have hlt : i < fc.length := by omega
      have hb : fc[i]? = some (fc.get ⟨i, hlt⟩) := by
        simp [List.getElem?_eq_getElem hlt]
      by_cases h7 : nth_bit (fc.get ⟨i, hlt⟩).val 7 = 0
      · exact ascii i _ hb h7 (ih _ (by omega) _ rfl)
      · by_cases hn : fc.length ≤ i + (nth_bit (fc.get ⟨i, hlt⟩).val 6
            + nth_bit (fc.get ⟨i, hlt⟩).val 5 + nth_bit (fc.get ⟨i, hlt⟩).val 4)
        · exact truncated i _ hb h7 hn
        · exact lead i _ hb h7 (by omega) (ih _ (by omega) _ rfl)

/-! ## `add_char` -/

theorem add_char_zero (fc : List Byte) (values : List Nat) (i c : Nat) :
    add_char fc values i c 0 = .error (.logic_error 0) := by
  simp [add_char]

theorem add_char_congr {fc1 fc2 : List Byte} {i n : Nat} (values : List Nat) (c : Nat)
    (h : ∀ k, 1 ≤ k → k ≤ n → fc1[i + k]? = fc2[i + k]?) :
    add_char fc1 values i c n = add_char fc2 values i c n := by
  match n, h with
  | 0, _ => simp [add_char]
  | 1, h =>
    simp only [add_char, read_byte_congr (h 1 (by omega) (by omega))]
  | 2, h =>
    simp only [add_char, read_byte_congr (h 1 (by omega) (by omega)),
      read_byte_congr (h 2 (by omega) (by omega))]
  | 3, h =>
    simp only [add_char, read_byte_congr (h 1 (by omega) (by omega)),
      read_byte_congr (h 2 (by omega) (by omega)),
      read_byte_congr (h 3 (by omega) (by omega))]
  | n + 4, _ => simp [add_char]

/-- What `add_char` does to the vector: `values` is kept and one value is
appended, the same value whatever `values` was. -/
theorem add_char_acc (fc : List Byte) (values : List Nat) (i c n : Nat) :
    add_char fc values i c n = Except.map (values ++ ·) (add_char fc [] i c n) := by
  match n with
  | 0 => simp [add_char, Except.map]
  | 1 =>
    simp only [add_char]
    cases read_byte fc (i + 1) <;> simp [Except.map]
  | 2 =>
    simp only [add_char]
    cases read_byte fc (i + 1) <;> cases read_byte fc (i + 2) <;> simp [Except.map]
  | 3 =>
    simp only [add_char]
    cases read_byte fc (i + 1) <;> cases read_byte fc (i + 2) <;>
      cases read_byte fc (i + 3) <;> simp [Except.map]
  | n + 4 => simp [add_char, Except.map]

/-! ## The loop as a whole -/

/-- The values already in the vector are never touched: the loop only appends. -/
theorem loop_acc (fc : List Byte) :
    ∀ i values, to_unicode_values.loop fc values i
      = Except.map (values ++ ·) (to_unicode_values.loop fc [] i) := by
  refine loop_cases_induct fc
    (fun i => ∀ values, to_unicode_values.loop fc values i
      = Except.map (values ++ ·) (to_unicode_values.loop fc [] i)) ?_ ?_ ?_ ?_
  · intro i hi values
    rw [loop_done values hi, loop_done [] hi]
    simp [Except.map]
  · intro i b hb h7 ih values
    rw [loop_ascii values hb h7, loop_ascii [] hb h7, ih (values ++ [b.val]),
      ih ([] ++ [b.val])]
    cases to_unicode_values.loop fc [] (i + 1) <;> simp [Except.map]
  · intro i b hb h7 hn values
    rw [loop_truncated values hb h7 hn, loop_truncated [] hb h7 hn]
    simp [Except.map]
  · intro i b hb h7 hn ih values
    rw [loop_lead values hb h7 hn, loop_lead [] hb h7 hn, add_char_acc fc values]
    cases add_char fc [] i b.val
        (nth_bit b.val 6 + nth_bit b.val 5 + nth_bit b.val 4) with
    | error e => simp [Except.map]
    | ok v =>
      simp only [Except.map]
      rw [ih (values ++ v), ih v]
      cases to_unicode_values.loop fc [] (i + (nth_bit b.val 6 + nth_bit b.val 5
        + nth_bit b.val 4 + 1)) <;> simp [Except.map]

/-- The loop started at `i` depends only on the length of the buffer and on the
bytes at positions `≥ i`. -/
theorem loop_congr {fc1 fc2 : List Byte} (hlen : fc1.length = fc2.length) (k : Nat)
    (hagree : ∀ j, k ≤ j → fc1[j]? = fc2[j]?) :
    ∀ i, k ≤ i → ∀ values,
      to_unicode_values.loop fc1 values i = to_unicode_values.loop fc2 values i := by
  refine loop_cases_induct fc1
    (fun i => k ≤ i → ∀ values,
      to_unicode_values.loop fc1 values i = to_unicode_values.loop fc2 values i) ?_ ?_ ?_ ?_
  · intro i hi _ values
    rw [loop_done values hi, loop_done values (hlen ▸ hi)]
  · intro i b hb h7 ih hk values
    have hb2 : fc2[i]? = some b := (hagree i hk) ▸ hb
    rw [loop_ascii values hb h7, loop_ascii values hb2 h7]
    exact ih (by omega) _
  · intro i b hb h7 hn hk values
    have hb2 : fc2[i]? = some b := (hagree i hk) ▸ hb
    rw [loop_truncated values hb h7 hn, loop_truncated values hb2 h7 (hlen ▸ hn)]
  · intro i b hb h7 hn ih hk values
    have hb2 : fc2[i]? = some b := (hagree i hk) ▸ hb
    rw [loop_lead values hb h7 hn, loop_lead values hb2 h7 (hlen ▸ hn),
      add_char_congr values b.val (fun j _ _ => hagree (i + j) (by omega))]
    cases add_char fc2 values i b.val
        (nth_bit b.val 6 + nth_bit b.val 5 + nth_bit b.val 4) with
    | error e => rfl
    | ok v => exact ih (by omega) v

/-- A decode of `s` that succeeds is replayed unchanged on any extension
`s ++ r`: it reaches cursor `|s|` with the same values. -/
theorem loop_append (s r : List Byte) :
    ∀ i, i ≤ s.length → ∀ values xs, to_unicode_values.loop s values i = .ok xs →
      to_unicode_values.loop (s ++ r) values i
        = to_unicode_values.loop (s ++ r) xs s.length := by
  refine loop_cases_induct s
    (fun i => i ≤ s.length → ∀ values xs, to_unicode_values.loop s values i = .ok xs →
      to_unicode_values.loop (s ++ r) values i
        = to_unicode_values.loop (s ++ r) xs s.length) ?_ ?_ ?_ ?_
  · intro i hi hle values xs h
    rw [loop_done values hi] at h
    have hi2 : i = s.length := by omega
    cases h
    rw [hi2]
  · intro i b hb h7 ih hle values xs h
    have hlt : i < s.length := by
      by_contra hc
      rw [List.getElem?_eq_none (by omega)] at hb
      cases hb
    have hb2 : (s ++ r)[i]? = some b := by
      rw [List.getElem?_append_left hlt]; exact hb
    rw [loop_ascii values hb h7] at h
    rw [loop_ascii values hb2 h7]
    exact ih (by omega) _ _ h
  · intro i b hb h7 hn hle values xs h
    rw [loop_truncated values hb h7 hn] at h
    cases h
  · intro i b hb h7 hn ih hle values xs h
    have hb2 : (s ++ r)[i]? = some b := by
      rw [List.getElem?_append_left (by omega)]; exact hb
    have hn2 : i + (nth_bit b.val 6 + nth_bit b.val 5 + nth_bit b.val 4)
        < (s ++ r).length := by
      rw [List.length_append]; omega
    have hc : add_char (s ++ r) values i b.val
          (nth_bit b.val 6 + nth_bit b.val 5 + nth_bit b.val 4)
        = add_char s values i b.val
          (nth_bit b.val 6 + nth_bit b.val 5 + nth_bit b.val 4) :=
      add_char_congr values b.val
        (fun j _ hj => List.getElem?_append_left (by omega))
    rw [loop_lead values hb h7 hn] at h
    rw [loop_lead values hb2 h7 hn2, hc]
    cases hadd : add_char s values i b.val
        (nth_bit b.val 6 + nth_bit b.val 5 + nth_bit b.val 4) with
    | error e => rw [hadd] at h; cases h
    | ok v =>
      rw [hadd] at h
      exact ih (by omega) _ _ h

/-! ## The assembled values -/

theorem assemble1_lt (c c1 : Nat) : ((c &&& 31) <<< 6) ||| (c1 &&& 63) < 2 ^ 11 := by
  have h1 : c &&& 31 ≤ 31 := Nat.and_le_right
  have h2 : c1 &&& 63 ≤ 63 := Nat.and_le_right
  apply Nat.or_lt_two_pow
  · rw [Nat.shiftLeft_eq]; omega
  · omega

theorem assemble2_lt (c c1 c2 : Nat) :
    ((c &&& 31) <<< 16) ||| ((c1 &&& 63) <<< 12) ||| (c2 &&& 63) < 2 ^ 21 := by
  have h1 : c &&& 31 ≤ 31 := Nat.and_le_right
  have h2 : c1 &&& 63 ≤ 63 := Nat.and_le_right
  have h3 : c2 &&& 63 ≤ 63 := Nat.and_le_right
  apply Nat.or_lt_two_pow
  · apply Nat.or_lt_two_pow
    · rw [Nat.shiftLeft_eq]; omega
    · rw [Nat.shiftLeft_eq]; omega
  · omega

theorem assemble3_lt (c c1 c2 c3 : Nat) :
    ((c &&& 31) <<< 22) ||| ((c1 &&& 63) <<< 18) ||| ((c2 &&& 63) <<< 12) ||| (c3 &&& 63)
      < 2 ^ 27 := by
  have h1 : c &&& 31 ≤ 31 := Nat.and_le_right
  have h2 : c1 &&& 63 ≤ 63 := Nat.and_le_right
  have h3 : c2 &&& 63 ≤ 63 := Nat.and_le_right
  have h4 : c3 &&& 63 ≤ 63 := Nat.and_le_right
  apply Nat.or_lt_two_pow
  · apply Nat.or_lt_two_pow
    · apply Nat.or_lt_two_pow
      · rw [Nat.shiftLeft_eq]; omega
      · rw [Nat.shiftLeft_eq]; omega
    · rw [Nat.shiftLeft_eq]; omega
  · omega

theorem add_char_one {fc : List Byte} {i : Nat} {b1 : Byte} (values : List Nat) (c : Nat)
    (h1 : fc[i + 1]? = some b1) :
    add_char fc values i c 1
      = .ok (values ++ [((c &&& 0x1F) <<< 6) ||| (b1.val &&& 0x3F)]) := by
  have hlt := assemble1_lt c b1.val
  simp only [add_char, read_byte_of_getElem? h1]
  rw [to_uint32_of_lt (by omega)]

theorem add_char_two {fc : List Byte} {i : Nat} {b1 b2 : Byte} (values : List Nat) (c : Nat)
    (h1 : fc[i + 1]? = some b1) (h2 : fc[i + 2]? = some b2) :
    add_char fc values i c 2
      = .ok (values ++
          [((c &&& 0x1F) <<< 16) ||| ((b1.val &&& 0x3F) <<< 12) ||| (b2.val &&& 0x3F)]) := by
  have hlt := assemble2_lt c b1.val b2.val
  simp only [add_char, read_byte_of_getElem? h1, read_byte_of_getElem? h2]
  rw [to_uint32_of_lt (by omega)]

theorem add_char_three {fc : List Byte} {i : Nat} {b1 b2 b3 : Byte} (values : List Nat)
    (c : Nat) (h1 : fc[i + 1]? = some b1) (h2 : fc[i + 2]? = some b2)
    (h3 : fc[i + 3]? = some b3) :
    add_char fc values i c 3
      = .ok (values ++
          [((c &&& 0x1F) <<< 22) ||| ((b1.val &&& 0x3F) <<< 18)
            ||| ((b2.val &&& 0x3F) <<< 12) ||| (b3.val &&& 0x3F)]) := by
  have hlt := assemble3_lt c b1.val b2.val b3.val
  simp only [add_char, read_byte_of_getElem? h1, read_byte_of_getElem? h2,
    read_byte_of_getElem? h3]
  rw [to_uint32_of_lt (by omega)]

/-! ## One whole sequence -/

theorem loop_seq0 {fc : List Byte} {i : Nat} {b : Byte} (values : List Nat)
    (hb : fc[i]? = some b) (h7 : nth_bit b.val 7 ≠ 0)
    (hn : nth_bit b.val 6 + nth_bit b.val 5 + nth_bit b.val 4 = 0) :
    to_unicode_values.loop fc values i = .error (.logic_error 0) := by
  have hi : i < fc.length := by
    by_contra hc
    rw [List.getElem?_eq_none (by omega)] at hb
    cases hb
  rw [loop_lead values hb h7 (by omega), hn, add_char_zero]

theorem loop_seq1 {fc : List Byte} {i : Nat} {b b1 : Byte} (values : List Nat)
    (hb : fc[i]? = some b) (h7 : nth_bit b.val 7 ≠ 0)
    (hn : nth_bit b.val 6 + nth_bit b.val 5 + nth_bit b.val 4 = 1)
    (h1 : fc[i + 1]? = some b1) :
    to_unicode_values.loop fc values i
      = to_unicode_values.loop fc
          (values ++ [((b.val &&& 0x1F) <<< 6) ||| (b1.val &&& 0x3F)]) (i + 2) := by
  have hi : i + 1 < fc.length := by
    by_contra hc
    rw [List.getElem?_eq_none (by omega)] at h1
    cases h1
  rw [loop_lead values hb h7 (by omega), hn, add_char_one values b.val h1]

theorem loop_seq2 {fc : List Byte} {i : Nat} {b b1 b2 : Byte} (values : List Nat)
    (hb : fc[i]? = some b) (h7 : nth_bit b.val 7 ≠ 0)
    (hn : nth_bit b.val 6 + nth_bit b.val 5 + nth_bit b.val 4 = 2)
    (h1 : fc[i + 1]? = some b1) (h2 : fc[i + 2]? = some b2) :
    to_unicode_values.loop fc values i
      = to_unicode_values.loop fc
          (values ++ [((b.val &&& 0x1F) <<< 16) ||| ((b1.val &&& 0x3F) <<< 12)
            ||| (b2.val &&& 0x3F)]) (i + 3) := by
  have hi : i + 2 < fc.length := by
    by_contra hc
    rw [List.getElem?_eq_none (by omega)] at h2
    cases h2
  rw [loop_lead values hb h7 (by omega), hn, add_char_two values b.val h1 h2]

theorem loop_seq3 {fc : List Byte} {i : Nat} {b b1 b2 b3 : Byte} (values : List Nat)
    (hb : fc[i]? = some b) (h7 : nth_bit b.val 7 ≠ 0)
    (hn : nth_bit b.val 6 + nth_bit b.val 5 + nth_bit b.val 4 = 3)
    (h1 : fc[i + 1]? = some b1) (h2 : fc[i + 2]? = some b2) (h3 : fc[i + 3]? = some b3) :
    to_unicode_values.loop fc values i
      = to_unicode_values.loop fc
          (values ++ [((b.val &&& 0x1F) <<< 22) ||| ((b1.val &&& 0x3F) <<< 18)
            ||| ((b2.val &&& 0x3F) <<< 12) ||| (b3.val &&& 0x3F)]) (i + 4) := by
  have hi : i + 3 < fc.length := by
    by_contra hc
    rw [List.getElem?_eq_none (by omega)] at h3
    cases h3
  rw [loop_lead values hb h7 (by omega), hn, add_char_three values b.val h1 h2 h3]

/-- Reading past a 3-byte prefix. -/
theorem getElem?_skip3 {p : List Byte} (hp : p.length = 3) (r : List Byte) (k : Nat) :
    (p ++ r)[3 + k]? = r[k]? := by
  rw [List.getElem?_append_right (by omega)]
  congr 1
  omega

/-! ## Buffers of ASCII bytes -/

theorem drop_of_getElem? {fc : List Byte} {i : Nat} {b : Byte} (hb : fc[i]? = some b) :
    fc.drop i = b :: fc.drop (i + 1) := by
  obtain ⟨hlt, hget⟩ := List.getElem?_eq_some.1 hb
  rw [List.drop_eq_getElem_cons hlt, hget]

/-- From a cursor after which every byte has bit 7 clear, the loop appends the
remaining bytes one by one and returns. -/
theorem loop_all_ascii (fc : List Byte) :
    ∀ i, (∀ j b, i ≤ j → fc[j]? = some b → nth_bit b.val 7 = 0) → ∀ values,
      to_unicode_values.loop fc values i
        = .ok (values ++ (fc.drop i).map (fun b => b.val)) := by
  refine loop_cases_induct fc
    (fun i => (∀ j b, i ≤ j → fc[j]? = some b → nth_bit b.val 7 = 0) → ∀ values,
      to_unicode_values.loop fc values i
        = .ok (values ++ (fc.drop i).map (fun b => b.val))) ?_ ?_ ?_ ?_
  · intro i hi _ values
    rw [loop_done values hi, List.drop_eq_nil_of_le hi]
    simp
  · intro i b hb h7 ih hall values
    rw [loop_ascii values hb h7, ih (fun j c hj hc => hall j c (by omega) hc),
      drop_of_getElem? hb]
    simp
  · intro i b hb h7 _ hall values
    exact absurd (hall i b (Nat.le_refl i) hb) h7
  · intro i b hb h7 _ _ hall values
    exact absurd (hall i b (Nat.le_refl i) hb) h7

/-- Claim C1. On a buffer of at least 3 bytes, all with bit 7 clear,
`to_unicode_values` succeeds; the output has `length - 3` elements and its
`i`-th element is the numeric value of input byte `i + 3`.  And a buffer made of
any 3 bytes followed by one byte with bit 7 clear decodes to exactly that
byte. -/
theorem C1_pure_ascii :
    (∀ fc : List Byte, 3 ≤ fc.length → (∀ b ∈ fc, nth_bit b.val 7 = 0) →
      ∃ out, to_unicode_values fc = .ok out ∧ out.length = fc.length - 3 ∧
        ∀ i, i < fc.length - 3 → ∃ b, fc[i + 3]? = some b ∧ out[i]? = some b.val) ∧
    (∀ p : List Byte, p.length = 3 → ∀ b : Byte, nth_bit b.val 7 = 0 →
      to_unicode_values (p ++ [b]) = .ok [b.val]) := by
  constructor
  · intro fc _ hall
    refine ⟨(fc.drop 3).map (fun b => b.val), ?_, by simp, ?_⟩
    · have h := loop_all_ascii fc 3
        (fun j b _ hb => hall b (List.getElem?_mem hb)) []
      simpa [to_unicode_values] using h
    · intro i hi
      have hlt : i + 3 < fc.length := by omega
      refine ⟨fc.get ⟨i + 3, hlt⟩, by simp [List.getElem?_eq_getElem hlt], ?_⟩
      simp [List.getElem?_map, List.getElem?_drop, Nat.add_comm 3 i,
        List.getElem?_eq_getElem hlt]
  · intro p hp b h7
    have h0 : (p ++ [b])[3]? = some b := by
      have := getElem?_skip3 hp [b] 0
      simpa using this
    unfold to_unicode_values
    rw [loop_ascii [] h0 h7, loop_done _ (by simp [hp])]
    simp

/-- Witness for C1: the 5-byte ASCII buffer `"abcAB"` and the buffer made of the
UTF-8 byte-order mark followed by `'A'`. -/
theorem C1_pure_ascii_witness :
    (∃ out, to_unicode_values [0x61, 0x62, 0x63, 0x41, 0x42] = .ok out ∧
      out.length = [(0x61 : Byte), 0x62, 0x63, 0x41, 0x42].length - 3 ∧
      ∀ i, i < [(0x61 : Byte), 0x62, 0x63, 0x41, 0x42].length - 3 →
        ∃ b, [(0x61 : Byte), 0x62, 0x63, 0x41, 0x42][i + 3]? = some b ∧
          out[i]? = some b.val) ∧
    to_unicode_values ([0xEF, 0xBB, 0xBF] ++ [0x41]) = .ok [(0x41 : Byte).val] :=
  ⟨C1_pure_ascii.1 [0x61, 0x62, 0x63, 0x41, 0x42] (by decide)
      (by simp [nth_bit, Fin.coe_ofNat_eq_mod]),
   C1_pure_ascii.2 [0xEF, 0xBB, 0xBF] rfl 0x41 (by decide)⟩

/-! ## Single sequences after the 3-byte prefix -/

/-- The four bits the decoder inspects, read off the high nibble of a byte. -/
theorem nth_bit_of_high_nibble {c q : Nat} (h : c >>> 4 = q) :
    nth_bit c 4 = q % 2 ∧ nth_bit c 5 = q / 2 % 2 ∧ nth_bit c 6 = q / 4 % 2 ∧
      nth_bit c 7 = q / 8 % 2 := by
  simp only [Nat.shiftRight_eq_div_pow] at h
  simp only [nth_bit_eq_div_mod]
  norm_num at h ⊢
  omega

/-- Claim C2 at the failing input: after the prefix `EF BB BF`, the two bytes
`0xD0 = 0b11000000 + 16` and `0x90 = 0b10000000 + 16` (the UTF-8 encoding of
U+0410) do not decode to `(16 << 6) | 16`: bit 4 of the lead byte is counted as
a length bit, two continuation bytes are expected, and the decode stops with
the length error at offset 3. -/
theorem C2_lead_0xD0_is_truncated :
    (0xD0 : Byte).val = 0b11000000 + 16 ∧ (0x90 : Byte).val = 0b10000000 + 16 ∧
    to_unicode_values ([0xEF, 0xBB, 0xBF] ++ [0xD0, 0x90]) = .error (.length_error 3) ∧
    to_unicode_values ([0xEF, 0xBB, 0xBF] ++ [0xD0, 0x90]) ≠ .ok [(16 <<< 6) ||| 16] := by
  have h : to_unicode_values ([0xEF, 0xBB, 0xBF] ++ [0xD0, 0x90])
      = .error (.length_error 3) :=
    loop_truncated (b := 0xD0) [] rfl (by decide) (by decide)
  refine ⟨rfl, rfl, h, ?_⟩
  rw [h]
  exact fun hc => nomatch hc

/-- Claim C3. After any 3-byte prefix, a lead byte `0b1110xxxx` followed by any
two bytes decodes to the single value
`((L & 0x1F) << 16) | ((b2 & 0x3F) << 12) | (b3 & 0x3F)`. -/
theorem C3_three_byte_sequence (p : List Byte) (hp : p.length = 3) (L b2 b3 : Byte)
    (hL : L.val >>> 4 = 0b1110) :
    to_unicode_values (p ++ [L, b2, b3])
      = .ok [((L.val &&& 0x1F) <<< 16) ||| ((b2.val &&& 0x3F) <<< 12)
          ||| (b3.val &&& 0x3F)] := by
  obtain ⟨h4, h5, h6, h7⟩ := nth_bit_of_high_nibble hL
  have e0 : (p ++ [L, b2, b3])[3]? = some L := by
    simpa using getElem?_skip3 hp [L, b2, b3] 0
  have e1 : (p ++ [L, b2, b3])[3 + 1]? = some b2 := by
    simpa using getElem?_skip3 hp [L, b2, b3] 1
  have e2 : (p ++ [L, b2, b3])[3 + 2]? = some b3 := by
    simpa using getElem?_skip3 hp [L, b2, b3] 2
  unfold to_unicode_values
  rw [loop_seq2 [] e0 (by omega) (by omega) e1 e2, loop_done _ (by simp [hp])]
  simp

/-- Witness for C3: the bytes `E2 82 AC` after the prefix `EF BB BF`. -/
theorem C3_three_byte_sequence_witness :
    to_unicode_values ([0xEF, 0xBB, 0xBF] ++ [0xE2, 0x82, 0xAC])
      = .ok [(((0xE2 : Byte).val &&& 0x1F) <<< 16) ||| (((0x82 : Byte).val &&& 0x3F) <<< 12)
          ||| ((0xAC : Byte).val &&& 0x3F)] :=
  C3_three_byte_sequence [0xEF, 0xBB, 0xBF] rfl 0xE2 0x82 0xAC (by decide)

/-! ## Truncation -/

theorem getElem?_append_length (s : List Byte) (L : Byte) (t : List Byte) :
    (s ++ ([L] ++ t))[s.length]? = some L := by
  rw [List.getElem?_append_right (Nat.le_refl _)]
  simp

/-- A small buffer that decodes: the prefix `EF BB BF` and the letter `A`. -/
theorem decode_bom_A : to_unicode_values [0xEF, 0xBB, 0xBF, 0x41] = .ok [0x41] := by
  unfold to_unicode_values
  rw [loop_ascii (b := 0x41) [] rfl (by decide), loop_done _ (by decide)]
  rfl

/-- Claim C4. If `s` (at least 3 bytes) decodes, `L` has bit 7 set and fewer
than `bit6(L) + bit5(L) + bit4(L)` bytes follow it, then decoding
`s ++ [L] ++ t` stops with the length error naming offset `|s|`; an error
carries no code points. -/
theorem C4_truncation_rejected (s : List Byte) (hs : 3 ≤ s.length)
    (hok : ∃ out, to_unicode_values s = .ok out) (L : Byte) (h7 : nth_bit L.val 7 = 1)
    (t : List Byte)
    (ht : t.length < nth_bit L.val 6 + nth_bit L.val 5 + nth_bit L.val 4) :
    to_unicode_values (s ++ [L] ++ t) = .error (.length_error s.length) := by
  obtain ⟨out, hout⟩ := hok
  rw [List.append_assoc]
  unfold to_unicode_values at hout ⊢
  rw [loop_append s ([L] ++ t) 3 hs [] out hout]
  refine loop_truncated out (getElem?_append_length s L t) (by omega) ?_
  simp only [List.length_append, List.length_cons, List.length_nil]
  omega

/-- Witness for C4: after `EF BB BF 41`, the lead byte `E2` declares 2
continuation bytes and only `82` follows. -/
theorem C4_truncation_rejected_witness :
    nth_bit (0xE2 : Byte).val 6 + nth_bit (0xE2 : Byte).val 5 + nth_bit (0xE2 : Byte).val 4 = 2 ∧
    to_unicode_values ([0xEF, 0xBB, 0xBF, 0x41] ++ [0xE2] ++ [0x82])
      = .error (.length_error 4) :=
  ⟨by decide,
   C4_truncation_rejected [0xEF, 0xBB, 0xBF, 0x41] (by decide) ⟨[0x41], decode_bom_A⟩
     0xE2 (by decide) [0x82] (by decide)⟩

/-! ## Which errors can occur -/

theorem mem_drop_of_getElem? {fc : List Byte} {k j : Nat} {b : Byte} (hj : k ≤ j)
    (hb : fc[j]? = some b) : b ∈ fc.drop k := by
  apply List.getElem?_mem (n := j - k)
  rw [List.getElem?_drop]
  have : k + (j - k) = j := by omega
  rw [this]
  exact hb

/-- Called inside the bounds check with a count of at most 3, `add_char` appends
one value, or is in its `default:` branch with count 0. -/
theorem add_char_in_bounds {fc : List Byte} {i n : Nat} (values : List Nat) (c : Nat)
    (hn : i + n < fc.length) (h3 : n ≤ 3) :
    (∃ v, add_char fc values i c n = .ok (values ++ [v])) ∨
      (n = 0 ∧ add_char fc values i c n = .error (.logic_error 0)) := by
  match n, hn, h3 with
  | 0, _, _ => exact Or.inr ⟨rfl, add_char_zero fc values i c⟩
  | 1, hn, _ =>
    exact Or.inl ⟨_, add_char_one values c (List.getElem?_eq_getElem (by omega))⟩
  | 2, hn, _ =>
    exact Or.inl ⟨_, add_char_two values c (List.getElem?_eq_getElem (by omega))
      (List.getElem?_eq_getElem (by omega))⟩
  | 3, hn, _ =>
    exact Or.inl ⟨_, add_char_three values c (List.getElem?_eq_getElem (by omega))
      (List.getElem?_eq_getElem (by omega)) (List.getElem?_eq_getElem (by omega))⟩
  | n + 4, _, h3 => omega

theorem bit_sum_le_three (c : Nat) : nth_bit c 6 + nth_bit c 5 + nth_bit c 4 ≤ 3 := by
  have h6 := nth_bit_le_one c 6
  have h5 := nth_bit_le_one c 5
  have h4 := nth_bit_le_one c 4
  omega

/-- Every failure of the loop is the length error or the logic error with count
0; in particular no read leaves the buffer. -/
theorem loop_error_kinds (fc : List Byte) :
    ∀ i values e, to_unicode_values.loop fc values i = .error e →
      e = .logic_error 0 ∨ ∃ j, e = .length_error j := by
  refine loop_cases_induct fc
    (fun i => ∀ values e, to_unicode_values.loop fc values i = .error e →
      e = .logic_error 0 ∨ ∃ j, e = .length_error j) ?_ ?_ ?_ ?_
  · intro i hi values e h
    rw [loop_done values hi] at h
    cases h
  · intro i b hb h7 ih values e h
    rw [loop_ascii values hb h7] at h
    exact ih _ e h
  · intro i b hb h7 hn values e h
    rw [loop_truncated values hb h7 hn] at h
    cases h
    exact Or.inr ⟨i, rfl⟩
  · intro i b hb h7 hn ih values e h
    rw [loop_lead values hb h7 hn] at h
    rcases add_char_in_bounds values b.val hn (bit_sum_le_three b.val) with ⟨v, hv⟩ | ⟨_, h0⟩
    · rw [hv] at h
      exact ih _ e h
    · rw [h0] at h
      cases h
      exact Or.inl rfl

/-- Without a lead byte of count 0 from cursor `k` on, the loop started at or
after `k` never throws the logic error. -/
theorem loop_no_logic_error (fc : List Byte) (k : Nat)
    (hno : ∀ b ∈ fc.drop k, nth_bit b.val 7 = 1 →
      nth_bit b.val 6 + nth_bit b.val 5 + nth_bit b.val 4 ≠ 0) :
    ∀ i, k ≤ i → ∀ values n,
      to_unicode_values.loop fc values i ≠ .error (.logic_error n) := by
  refine loop_cases_induct fc
    (fun i => k ≤ i → ∀ values n,
      to_unicode_values.loop fc values i ≠ .error (.logic_error n)) ?_ ?_ ?_ ?_
  · intro i hi _ values n h
    rw [loop_done values hi] at h
    cases h
  · intro i b hb h7 ih hk values n h
    rw [loop_ascii values hb h7] at h
    exact ih (by omega) _ n h
  · intro i b hb h7 hn _ values n h
    rw [loop_truncated values hb h7 hn] at h
    cases h
  · intro i b hb h7 hn ih hk values n h
    rw [loop_lead values hb h7 hn] at h
    have hb7 : nth_bit b.val 7 = 1 := by
      have := nth_bit_le_one b.val 7
      omega
    have hne := hno b (mem_drop_of_getElem? hk hb) hb7
    rcases add_char_in_bounds values b.val hn (bit_sum_le_three b.val) with ⟨v, hv⟩ | ⟨h0, _⟩
    · rw [hv] at h
      exact ih (by omega) _ n h
    · exact hne h0

/-- Claim C5, as stated, fails: the lead byte `0x80` has bit 7 set and
`bit6 + bit5 + bit4 = 0`, no `case` of `add_char` is selected and the decode
stops with the logic error carrying the count 0. -/
theorem C5_logic_error_reached :
    nth_bit (0x80 : Byte).val 7 = 1 ∧
    nth_bit (0x80 : Byte).val 6 + nth_bit (0x80 : Byte).val 5 + nth_bit (0x80 : Byte).val 4 = 0 ∧
    to_unicode_values [0xEF, 0xBB, 0xBF, 0x80] = .error (.logic_error 0) :=
  ⟨by decide, by decide, loop_seq0 (b := 0x80) [] rfl (by decide) (by decide)⟩

/-- Claim C5, amended. A decode fails only with the length error or with the
logic error carrying the count 0 (never with another count, never by a read
outside the buffer); and on a buffer that has, from offset 3 on, no byte with
bit 7 set and `bit6 + bit5 + bit4 = 0`, only the length error can make it
fail. -/
theorem C5_failures_are_truncation_or_count_zero (fc : List Byte) :
    (∀ e, to_unicode_values fc = .error e →
      e = .logic_error 0 ∨ ∃ i, e = .length_error i) ∧
    ((∀ b ∈ fc.drop 3, nth_bit b.val 7 = 1 →
        nth_bit b.val 6 + nth_bit b.val 5 + nth_bit b.val 4 ≠ 0) →
      ∀ e, to_unicode_values fc = .error e → ∃ i, e = .length_error i) := by
  constructor
  · intro e h
    exact loop_error_kinds fc 3 [] e h
  · intro hno e h
    rcases loop_error_kinds fc 3 [] e h with h0 | hl
    · subst h0
      exact absurd h (loop_no_logic_error fc 3 hno 3 (Nat.le_refl 3) [] 0)
    · exact hl

/-- Witness for C5 (amended): `EF BB BF 80` fails with the logic error of count
0, and `EF BB BF E2 41`, which has no lead byte of count 0, fails with the length
error. -/
theorem C5_failures_are_truncation_or_count_zero_witness :
    (DecodeError.logic_error 0 = .logic_error 0 ∨
      ∃ i, DecodeError.logic_error 0 = .length_error i) ∧
    (∃ i, DecodeError.length_error 3 = .length_error i) :=
  ⟨(C5_failures_are_truncation_or_count_zero [0xEF, 0xBB, 0xBF, 0x80]).1 (.logic_error 0)
      (loop_seq0 (b := 0x80) [] rfl (by decide) (by decide)),
   (C5_failures_are_truncation_or_count_zero [0xEF, 0xBB, 0xBF, 0xE2, 0x41]).2
      (by simp [nth_bit, Fin.coe_ofNat_eq_mod]) (.length_error 3)
      (loop_truncated (b := 0xE2) [] rfl (by decide) (by decide))⟩

/-! ## The doc comment: Unicode values of UTF-8 text -/

/-- Claim C6 at the failing input: U+20AC is a scalar value, its UTF-8 encoding
is `E2 82 AC`, and after the prefix `EF BB BF` the decoder returns `0x2202C`
(139308), not `0x20AC`: the three fields are combined with shifts 16/12/0
instead of 12/6/0. -/
theorem C6_euro_sign_decodes_wrong :
    is_scalar_value 0x20AC = true ∧
    utf8_encode [0x20AC] = [0xE2, 0x82, 0xAC] ∧
    to_unicode_values ([0xEF, 0xBB, 0xBF] ++ utf8_encode [0x20AC]) = .ok [0x2202C] ∧
    to_unicode_values ([0xEF, 0xBB, 0xBF] ++ utf8_encode [0x20AC]) ≠ .ok [0x20AC] := by
  have henc : utf8_encode [0x20AC] = [0xE2, 0x82, 0xAC] := by decide
  have h : to_unicode_values ([0xEF, 0xBB, 0xBF] ++ utf8_encode [0x20AC])
      = .ok [0x2202C] := by
    rw [henc]
    unfold to_unicode_values
    rw [@loop_seq2 _ 3 0xE2 0x82 0xAC [] rfl (by decide) (by decide) rfl rfl,
      loop_done _ (by decide)]
    rfl
  refine ⟨by decide, henc, h, ?_⟩
  rw [h]
  intro hc
  injection hc with hc
  simp at hc

/-! ## The skipped prefix -/

/-- Claim C7. A buffer of fewer than 3 bytes decodes to the empty sequence: the
loop condition is false at once, so nothing is read and nothing fails. -/
theorem C7_short_buffer (fc : List Byte) (h : fc.length < 3) :
    to_unicode_values fc = .ok [] :=
  loop_done [] (by omega)

/-- Witness for C7: the 2-byte buffer `C3 A9`. -/
theorem C7_short_buffer_witness : to_unicode_values [0xC3, 0xA9] = .ok [] :=
  C7_short_buffer [0xC3, 0xA9] (by decide)

/-- Claim C8. The first 3 bytes never influence the result: two buffers with
the same bytes after a 3-byte prefix give the same outcome, values or error
with its offset. -/
theorem C8_prefix_ignored (p1 p2 s : List Byte) (h1 : p1.length = 3)
    (h2 : p2.length = 3) :
    to_unicode_values (p1 ++ s) = to_unicode_values (p2 ++ s) := by
  unfold to_unicode_values
  refine loop_congr (by simp [h1, h2]) 3 ?_ 3 (Nat.le_refl 3) []
  intro j hj
  rw [List.getElem?_append_right (by omega), List.getElem?_append_right (by omega),
    h1, h2]

/-- Witness for C8: the prefixes `EF BB BF` and `00 00 00` before `E2 82`. -/
theorem C8_prefix_ignored_witness :
    to_unicode_values ([0xEF, 0xBB, 0xBF] ++ [0xE2, 0x82])
      = to_unicode_values ([0x00, 0x00, 0x00] ++ [0xE2, 0x82]) :=
  C8_prefix_ignored [0xEF, 0xBB, 0xBF] [0x00, 0x00, 0x00] [0xE2, 0x82] rfl rfl

/-! ## Continuation bytes -/

/-- The function `add_char` sees its continuation bytes only through their low 6
bits. -/
theorem add_char_congr_masked {fc1 fc2 : List Byte} {i n : Nat} (values : List Nat)
    (c : Nat) (h1 : i + n < fc1.length) (h2 : i + n < fc2.length)
    (h : ∀ k, 1 ≤ k → k ≤ n →
      (fc1[i + k]?).map (fun b => b.val &&& 0x3F)
        = (fc2[i + k]?).map (fun b => b.val &&& 0x3F)) :
    add_char fc1 values i c n = add_char fc2 values i c n := by
  have key : ∀ k, 1 ≤ k → k ≤ n → ∃ x y, fc1[i + k]? = some x ∧ fc2[i + k]? = some y ∧
      x.val &&& 0x3F = y.val &&& 0x3F := by
    intro k hk1 hkn
    have e1 : fc1[i + k]? = some (fc1.get ⟨i + k, by omega⟩) := by
      simp [List.getElem?_eq_getElem (show i + k < fc1.length by omega)]
    have e2 : fc2[i + k]? = some (fc2.get ⟨i + k, by omega⟩) := by
      simp [List.getElem?_eq_getElem (show i + k < fc2.length by omega)]
    have hm := h k hk1 hkn
    rw [e1, e2] at hm
    exact ⟨_, _, e1, e2, by simpa using hm⟩
  match n, key with
  | 0, _ => simp [add_char]
  | 1, key =>
    obtain ⟨x1, y1, ex1, ey1, m1⟩ := key 1 (by omega) (by omega)
    rw [add_char_one values c ex1, add_char_one values c ey1, m1]
  | 2, key =>
    obtain ⟨x1, y1, ex1, ey1, m1⟩ := key 1 (by omega) (by omega)
    obtain ⟨x2, y2, ex2, ey2, m2⟩ := key 2 (by omega) (by omega)
    rw [add_char_two values c ex1 ex2, add_char_two values c ey1 ey2, m1, m2]
  | 3, key =>
    obtain ⟨x1, y1, ex1, ey1, m1⟩ := key 1 (by omega) (by omega)
    obtain ⟨x2, y2, ex2, ey2, m2⟩ := key 2 (by omega) (by omega)
    obtain ⟨x3, y3, ex3, ey3, m3⟩ := key 3 (by omega) (by omega)
    rw [add_char_three values c ex1 ex2 ex3, add_char_three values c ey1 ey2 ey3,
      m1, m2, m3]
  | n + 4, _ => simp [add_char]

/-- Positions in `s ++ [L] ++ cs ++ t`: the lead byte. -/
theorem getElem?_lead (s : List Byte) (L : Byte) (cs t : List Byte) :
    (s ++ [L] ++ cs ++ t)[s.length]? = some L := by
  rw [List.append_assoc, List.append_assoc]
  exact getElem?_append_length s L (cs ++ t)

/-- Positions in `s ++ [L] ++ cs ++ t`: the bytes of `cs`. -/
theorem getElem?_cont (s : List Byte) (L : Byte) (cs t : List Byte) (k : Nat)
    (hk1 : 1 ≤ k) (hk : k ≤ cs.length) :
    (s ++ [L] ++ cs ++ t)[s.length + k]? = cs[k - 1]? := by
  rw [List.getElem?_append_left
      (by simp only [List.length_append, List.length_cons, List.length_nil]; omega),
    List.getElem?_append_right
      (by simp only [List.length_append, List.length_cons, List.length_nil]; omega)]
  congr 1
  simp only [List.length_append, List.length_cons, List.length_nil]
  omega

/-- Positions in `s ++ [L] ++ cs ++ t`: the bytes of `t`. -/
theorem getElem?_tail (s : List Byte) (L : Byte) (cs t : List Byte) (j : Nat)
    (hj : s.length + (cs.length + 1) ≤ j) :
    (s ++ [L] ++ cs ++ t)[j]? = t[j - (s.length + (cs.length + 1))]? := by
  rw [List.getElem?_append_right
      (by simp only [List.length_append, List.length_cons, List.length_nil]; omega)]
  congr 1
  simp only [List.length_append, List.length_cons, List.length_nil]
  omega

theorem length_lead_cont (s : List Byte) (L : Byte) (cs t : List Byte) :
    (s ++ [L] ++ cs ++ t).length = s.length + (cs.length + 1) + t.length := by
  simp only [List.length_append, List.length_cons, List.length_nil]
  omega

/-- After a decodable `s`, the decode of `s ++ [L] ++ cs ++ t` is at cursor `|s|`
with the values of `s`. -/
theorem loop_after_decoded {s : List Byte} (hs : 3 ≤ s.length) {out : List Nat}
    (hout : to_unicode_values s = .ok out) (L : Byte) (cs t : List Byte) :
    to_unicode_values (s ++ [L] ++ cs ++ t)
      = to_unicode_values.loop (s ++ [L] ++ cs ++ t) out s.length := by
  have h := loop_append s ([L] ++ cs ++ t) 3 hs [] out hout
  simp only [← List.append_assoc] at h
  exact h

/-- Claim C9. After a decodable `s`, for a lead byte `L` with
`bit6 + bit5 + bit4` in `{1, 2, 3}`: two lists of that many continuation bytes
that agree on their low 6 bits give identical results for every tail `t`, and
`s ++ [L] ++ cs` decodes whatever the bytes of `cs` are. -/
theorem C9_continuation_low_six_bits (s : List Byte) (hs : 3 ≤ s.length)
    (hok : ∃ out, to_unicode_values s = .ok out) (L : Byte) (h7 : nth_bit L.val 7 = 1)
    (hextra : nth_bit L.val 6 + nth_bit L.val 5 + nth_bit L.val 4 = 1 ∨
      nth_bit L.val 6 + nth_bit L.val 5 + nth_bit L.val 4 = 2 ∨
      nth_bit L.val 6 + nth_bit L.val 5 + nth_bit L.val 4 = 3) :
    (∀ cs cs' : List Byte,
      cs.length = nth_bit L.val 6 + nth_bit L.val 5 + nth_bit L.val 4 →
      cs'.length = nth_bit L.val 6 + nth_bit L.val 5 + nth_bit L.val 4 →
      (∀ i, i < nth_bit L.val 6 + nth_bit L.val 5 + nth_bit L.val 4 →
        (cs[i]?).map (fun b => b.val &&& 0x3F) = (cs'[i]?).map (fun b => b.val &&& 0x3F)) →
      ∀ t, to_unicode_values (s ++ [L] ++ cs ++ t)
        = to_unicode_values (s ++ [L] ++ cs' ++ t)) ∧
    (∀ cs : List Byte,
      cs.length = nth_bit L.val 6 + nth_bit L.val 5 + nth_bit L.val 4 →
      ∃ out, to_unicode_values (s ++ [L] ++ cs) = .ok out) := by
  obtain ⟨out, hout⟩ := hok
  have h7ne : nth_bit L.val 7 ≠ 0 := by omega
  constructor
  · intro cs cs' hc hc' hm t
    have hlen := length_lead_cont s L cs t
    have hlen' := length_lead_cont s L cs' t
    have hn : s.length + (nth_bit L.val 6 + nth_bit L.val 5 + nth_bit L.val 4)
        < (s ++ [L] ++ cs ++ t).length := by omega
    have hn' : s.length + (nth_bit L.val 6 + nth_bit L.val 5 + nth_bit L.val 4)
        < (s ++ [L] ++ cs' ++ t).length := by omega
    have hmask : ∀ k, 1 ≤ k → k ≤ nth_bit L.val 6 + nth_bit L.val 5 + nth_bit L.val 4 →
        ((s ++ [L] ++ cs ++ t)[s.length + k]?).map (fun b => b.val &&& 0x3F)
          = ((s ++ [L] ++ cs' ++ t)[s.length + k]?).map (fun b => b.val &&& 0x3F) := by
      intro k hk1 hk
      rw [getElem?_cont s L cs t k hk1 (by omega), getElem?_cont s L cs' t k hk1 (by omega)]
      exact hm (k - 1) (by omega)
    rw [loop_after_decoded hs hout L cs t, loop_after_decoded hs hout L cs' t,
      loop_lead out (getElem?_lead s L cs t) h7ne hn,
      loop_lead out (getElem?_lead s L cs' t) h7ne hn',
      add_char_congr_masked out L.val hn hn' hmask]
    cases add_char (s ++ [L] ++ cs' ++ t) out s.length L.val
        (nth_bit L.val 6 + nth_bit L.val 5 + nth_bit L.val 4) with
    | error e => rfl
    | ok v =>
      refine loop_congr (by omega) _ ?_ _ (Nat.le_refl _) v
      intro j hj
      rw [getElem?_tail s L cs t j (by omega), getElem?_tail s L cs' t j (by omega),
        hc, hc']
  · intro cs hc
    have hlen := length_lead_cont s L cs []
    have hn : s.length + (nth_bit L.val 6 + nth_bit L.val 5 + nth_bit L.val 4)
        < (s ++ [L] ++ cs ++ []).length := by omega
    have h := loop_after_decoded hs hout L cs []
    rw [loop_lead out (getElem?_lead s L cs []) h7ne hn] at h
    rcases add_char_in_bounds out L.val hn (bit_sum_le_three L.val) with ⟨v, hv⟩ | ⟨h0, _⟩
    · rw [hv] at h
      simp only [] at h
      rw [loop_done _ (by rw [hlen]; simp only [List.length_nil]; omega)] at h
      rw [List.append_nil] at h
      exact ⟨_, h⟩
    · omega

/-- Witness for C9: after `EF BB BF 41`, the lead byte `E2` (count 2) with
continuation bytes `82 AC` and with `02 6C` (same low 6 bits, tag bits not
`10`), before the tail `42`. -/
theorem C9_continuation_low_six_bits_witness :
    to_unicode_values ([0xEF, 0xBB, 0xBF, 0x41] ++ [0xE2] ++ [0x82, 0xAC] ++ [0x42])
      = to_unicode_values ([0xEF, 0xBB, 0xBF, 0x41] ++ [0xE2] ++ [0x02, 0x6C] ++ [0x42]) ∧
    ∃ out, to_unicode_values ([0xEF, 0xBB, 0xBF, 0x41] ++ [0xE2] ++ [0x02, 0x6C]) = .ok out :=
  ⟨(C9_continuation_low_six_bits [0xEF, 0xBB, 0xBF, 0x41] (by decide) ⟨[0x41], decode_bom_A⟩
      0xE2 (by decide) (Or.inr (Or.inl (by decide)))).1 [0x82, 0xAC] [0x02, 0x6C]
      (by decide) (by decide)
      (by
        intro i hi
        have hi2 : i < 2 := hi
        match i, hi2 with
        | 0, _ => decide
        | 1, _ => decide) [0x42],
   (C9_continuation_low_six_bits [0xEF, 0xBB, 0xBF, 0x41] (by decide) ⟨[0x41], decode_bom_A⟩
      0xE2 (by decide) (Or.inr (Or.inl (by decide)))).2 [0x02, 0x6C] (by decide)⟩

/-! ## The count 0 and the count 1 -/

/-- Claim C10, as stated, fails: `0x80` has bit 7 set and
`bit6 + bit5 + bit4 = 0`, and `EF BB BF 80 41` does not decode to
`((0x80 & 0x1F) << 6) | (0x41 & 0x3F)`: the decode stops with the logic error of
count 0. -/
theorem C10_count_zero_is_logic_error :
    nth_bit (0x80 : Byte).val 7 = 1 ∧
    nth_bit (0x80 : Byte).val 6 + nth_bit (0x80 : Byte).val 5 + nth_bit (0x80 : Byte).val 4 = 0 ∧
    to_unicode_values ([0xEF, 0xBB, 0xBF] ++ [0x80, 0x41]) = .error (.logic_error 0) ∧
    to_unicode_values ([0xEF, 0xBB, 0xBF] ++ [0x80, 0x41])
      ≠ .ok [(((0x80 : Byte).val &&& 0x1F) <<< 6) ||| ((0x41 : Byte).val &&& 0x3F)] := by
  have h : to_unicode_values ([0xEF, 0xBB, 0xBF] ++ [0x80, 0x41])
      = .error (.logic_error 0) :=
    loop_seq0 (b := 0x80) [] rfl (by decide) (by decide)
  refine ⟨by decide, by decide, h, ?_⟩
  rw [h]
  exact fun hc => nomatch hc

/-- Claim C10, amended. After any 3-byte prefix, for a lead byte `b` with bit 7
set and any following byte `n`: when `bit6 + bit5 + bit4 = 1`, `p ++ [b, n]`
decodes to the single value `((b & 0x1F) << 6) | (n & 0x3F)`, and on any longer
buffer the loop is at cursor `3 + 2` with that one value after the sequence (2
bytes consumed); when `bit6 + bit5 + bit4 = 0`, the decode stops with the logic
error of count 0. -/
theorem C10_count_one_two_byte_sequence (p : List Byte) (hp : p.length = 3) (b n : Byte)
    (h7 : nth_bit b.val 7 = 1) :
    (nth_bit b.val 6 + nth_bit b.val 5 + nth_bit b.val 4 = 1 →
      to_unicode_values (p ++ [b, n])
        = .ok [((b.val &&& 0x1F) <<< 6) ||| (n.val &&& 0x3F)] ∧
      ∀ t, to_unicode_values.loop (p ++ [b, n] ++ t) [] 3
        = to_unicode_values.loop (p ++ [b, n] ++ t)
            [((b.val &&& 0x1F) <<< 6) ||| (n.val &&& 0x3F)] (3 + 2)) ∧
    (nth_bit b.val 6 + nth_bit b.val 5 + nth_bit b.val 4 = 0 →
      to_unicode_values (p ++ [b, n]) = .error (.logic_error 0)) := by
  have h7ne : nth_bit b.val 7 ≠ 0 := by omega
  have e0 : ∀ t, (p ++ ([b, n] ++ t))[3]? = some b := fun t => by
    simpa using getElem?_skip3 hp ([b, n] ++ t) 0
  have e1 : ∀ t, (p ++ ([b, n] ++ t))[3 + 1]? = some n := fun t => by
    simpa using getElem?_skip3 hp ([b, n] ++ t) 1
  refine ⟨fun h1 => ⟨?_, ?_⟩, fun h0 => ?_⟩
  · have a0 := e0 []
    have a1 := e1 []
    rw [List.append_nil] at a0 a1
    unfold to_unicode_values
    rw [loop_seq1 [] a0 h7ne h1 a1, loop_done _ (by simp [hp])]
    simp
  · intro t
    rw [List.append_assoc, loop_seq1 [] (e0 t) h7ne h1 (e1 t)]
    simp
  · have a0 := e0 []
    rw [List.append_nil] at a0
    exact loop_seq0 [] a0 h7ne h0

/-- Witness for C10 (amended): `C3 A9` (count 1) and `80 41` (count 0) after the
prefix `EF BB BF`. -/
theorem C10_count_one_two_byte_sequence_witness :
    (to_unicode_values ([0xEF, 0xBB, 0xBF] ++ [0xC3, 0xA9])
        = .ok [(((0xC3 : Byte).val &&& 0x1F) <<< 6) ||| ((0xA9 : Byte).val &&& 0x3F)] ∧
      ∀ t, to_unicode_values.loop ([0xEF, 0xBB, 0xBF] ++ [0xC3, 0xA9] ++ t) [] 3
        = to_unicode_values.loop ([0xEF, 0xBB, 0xBF] ++ [0xC3, 0xA9] ++ t)
            [(((0xC3 : Byte).val &&& 0x1F) <<< 6) ||| ((0xA9 : Byte).val &&& 0x3F)] (3 + 2)) ∧
    to_unicode_values ([0xEF, 0xBB, 0xBF] ++ [0x80, 0x41]) = .error (.logic_error 0) :=
  ⟨(C10_count_one_two_byte_sequence [0xEF, 0xBB, 0xBF] rfl 0xC3 0xA9 (by decide)).1
      (by decide),
   (C10_count_one_two_byte_sequence [0xEF, 0xBB, 0xBF] rfl 0x80 0x41 (by decide)).2
      (by decide)⟩

/-! ## The count 2 and the count 3 -/

/-- Claim C11, as stated, fails: `0xE2` has bit 7 set and
`bit6 + bit5 + bit4 = 2`, and `EF BB BF E2 82 AC 41` does not decode to the
single 22/18/12/0 value: `E2 82 AC` is assembled with shifts 16/12/0 and `41`
is decoded as the next character, giving two values. -/
theorem C11_count_two_reads_three_bytes :
    nth_bit (0xE2 : Byte).val 7 = 1 ∧
    nth_bit (0xE2 : Byte).val 6 + nth_bit (0xE2 : Byte).val 5 + nth_bit (0xE2 : Byte).val 4 = 2 ∧
    to_unicode_values ([0xEF, 0xBB, 0xBF] ++ [0xE2, 0x82, 0xAC, 0x41]) = .ok [0x2202C, 0x41] ∧
    to_unicode_values ([0xEF, 0xBB, 0xBF] ++ [0xE2, 0x82, 0xAC, 0x41])
      ≠ .ok [(((0xE2 : Byte).val &&& 0x1F) <<< 22) ||| (((0x82 : Byte).val &&& 0x3F) <<< 18)
          ||| (((0xAC : Byte).val &&& 0x3F) <<< 12) ||| ((0x41 : Byte).val &&& 0x3F)] := by
  have h : to_unicode_values ([0xEF, 0xBB, 0xBF] ++ [0xE2, 0x82, 0xAC, 0x41])
      = .ok [0x2202C, 0x41] := by
    unfold to_unicode_values
    rw [@loop_seq2 _ 3 0xE2 0x82 0xAC [] rfl (by decide) (by decide) rfl rfl,
      @loop_ascii _ (3 + 3) 0x41 _ rfl (by decide), loop_done _ (by decide)]
    rfl
  refine ⟨by decide, by decide, h, ?_⟩
  rw [h]
  intro hc
  injection hc with hc
  simp at hc

/-- Claim C11, amended. After any 3-byte prefix, for a lead byte `b` with bit 7
set and any following bytes `n1 n2 n3`: when `bit6 + bit5 + bit4 = 3`,
`p ++ [b, n1, n2, n3]` decodes to the single value
`((b & 0x1F) << 22) | ((n1 & 0x3F) << 18) | ((n2 & 0x3F) << 12) | (n3 & 0x3F)`
and the cursor is then at `3 + 4`; when `bit6 + bit5 + bit4 = 2`, the loop
appends `((b & 0x1F) << 16) | ((n1 & 0x3F) << 12) | (n2 & 0x3F)` and is then at
cursor `3 + 3`, on the byte `n3`. -/
theorem C11_count_three_four_byte_sequence (p : List Byte) (hp : p.length = 3)
    (b n1 n2 n3 : Byte) (h7 : nth_bit b.val 7 = 1) :
    (nth_bit b.val 6 + nth_bit b.val 5 + nth_bit b.val 4 = 3 →
      to_unicode_values (p ++ [b, n1, n2, n3])
        = .ok [((b.val &&& 0x1F) <<< 22) ||| ((n1.val &&& 0x3F) <<< 18)
            ||| ((n2.val &&& 0x3F) <<< 12) ||| (n3.val &&& 0x3F)] ∧
      ∀ t, to_unicode_values.loop (p ++ [b, n1, n2, n3] ++ t) [] 3
        = to_unicode_values.loop (p ++ [b, n1, n2, n3] ++ t)
            [((b.val &&& 0x1F) <<< 22) ||| ((n1.val &&& 0x3F) <<< 18)
              ||| ((n2.val &&& 0x3F) <<< 12) ||| (n3.val &&& 0x3F)] (3 + 4)) ∧
    (nth_bit b.val 6 + nth_bit b.val 5 + nth_bit b.val 4 = 2 →
      ∀ t, to_unicode_values.loop (p ++ [b, n1, n2, n3] ++ t) [] 3
        = to_unicode_values.loop (p ++ [b, n1, n2, n3] ++ t)
            [((b.val &&& 0x1F) <<< 16) ||| ((n1.val &&& 0x3F) <<< 12)
              ||| (n2.val &&& 0x3F)] (3 + 3)) := by
  have h7ne : nth_bit b.val 7 ≠ 0 := by omega
  have e0 : ∀ t, (p ++ ([b, n1, n2, n3] ++ t))[3]? = some b := fun t => by
    simpa using getElem?_skip3 hp ([b, n1, n2, n3] ++ t) 0
  have e1 : ∀ t, (p ++ ([b, n1, n2, n3] ++ t))[3 + 1]? = some n1 := fun t => by
    simpa using getElem?_skip3 hp ([b, n1, n2, n3] ++ t) 1
  have e2 : ∀ t, (p ++ ([b, n1, n2, n3] ++ t))[3 + 2]? = some n2 := fun t => by
    simpa using getElem?_skip3 hp ([b, n1, n2, n3] ++ t) 2
  have e3 : ∀ t, (p ++ ([b, n1, n2, n3] ++ t))[3 + 3]? = some n3 := fun t => by
    simpa using getElem?_skip3 hp ([b, n1, n2, n3] ++ t) 3
  refine ⟨fun h3 => ⟨?_, ?_⟩, fun h2 => ?_⟩
  · have a0 := e0 []
    have a1 := e1 []
    have a2 := e2 []
    have a3 := e3 []
    rw [List.append_nil] at a0 a1 a2 a3
    unfold to_unicode_values
    rw [loop_seq3 [] a0 h7ne h3 a1 a2 a3, loop_done _ (by simp [hp])]
    simp
  · intro t
    rw [List.append_assoc, loop_seq3 [] (e0 t) h7ne h3 (e1 t) (e2 t) (e3 t)]
    simp
  · intro t
    rw [List.append_assoc, loop_seq2 [] (e0 t) h7ne h2 (e1 t) (e2 t)]
    simp

/-- Witness for C11 (amended): `F0 9F 98 80` (count 3) and `E2 82 AC 41`
(count 2) after the prefix `EF BB BF`. -/
theorem C11_count_three_four_byte_sequence_witness :
    to_unicode_values ([0xEF, 0xBB, 0xBF] ++ [0xF0, 0x9F, 0x98, 0x80])
        = .ok [(((0xF0 : Byte).val &&& 0x1F) <<< 22) ||| (((0x9F : Byte).val &&& 0x3F) <<< 18)
            ||| (((0x98 : Byte).val &&& 0x3F) <<< 12) ||| ((0x80 : Byte).val &&& 0x3F)] ∧
    ∀ t, to_unicode_values.loop ([0xEF, 0xBB, 0xBF] ++ [0xE2, 0x82, 0xAC, 0x41] ++ t) [] 3
        = to_unicode_values.loop ([0xEF, 0xBB, 0xBF] ++ [0xE2, 0x82, 0xAC, 0x41] ++ t)
            [(((0xE2 : Byte).val &&& 0x1F) <<< 16) ||| (((0x82 : Byte).val &&& 0x3F) <<< 12)
              ||| ((0xAC : Byte).val &&& 0x3F)] (3 + 3) :=
  ⟨((C11_count_three_four_byte_sequence [0xEF, 0xBB, 0xBF] rfl 0xF0 0x9F 0x98 0x80
      (by decide)).1 (by decide)).1,
   (C11_count_three_four_byte_sequence [0xEF, 0xBB, 0xBF] rfl 0xE2 0x82 0xAC 0x41
      (by decide)).2 (by decide)⟩

/-! ## The loop as an iteration: cursor and termination -/

theorem body_ascii {fc : List Byte} {i : Nat} {b : Byte} (values : List Nat)
    (hb : fc[i]? = some b) (h7 : nth_bit b.val 7 = 0) :
    to_unicode_values.body fc values i = .ok (values ++ [b.val], i + 1) := by
  rw [to_unicode_values.body, read_byte_of_getElem? hb]
  simp only [(is_ASCII_iff b.val).2 h7, if_true, to_uint32_byte]

theorem body_truncated {fc : List Byte} {i : Nat} {b : Byte} (values : List Nat)
    (hb : fc[i]? = some b) (h7 : nth_bit b.val 7 ≠ 0)
    (hn : fc.length ≤ i + (nth_bit b.val 6 + nth_bit b.val 5 + nth_bit b.val 4)) :
    to_unicode_values.body fc values i = .error (.length_error i) := by
  have ha : ¬ (is_ASCII b.val = true) := fun h => h7 ((is_ASCII_iff b.val).1 h)
  rw [to_unicode_values.body, read_byte_of_getElem? hb]
  simp only [ha, Bool.false_eq_true, if_false, ge_iff_le, hn, if_true]

theorem body_lead {fc : List Byte} {i : Nat} {b : Byte} (values : List Nat)
    (hb : fc[i]? = some b) (h7 : nth_bit b.val 7 ≠ 0)
    (hn : i + (nth_bit b.val 6 + nth_bit b.val 5 + nth_bit b.val 4) < fc.length) :
    to_unicode_values.body fc values i
      = match add_char fc values i b.val
            (nth_bit b.val 6 + nth_bit b.val 5 + nth_bit b.val 4) with
        | .error e => .error e
        | .ok values1 =>
          .ok (values1, i + (nth_bit b.val 6 + nth_bit b.val 5 + nth_bit b.val 4 + 1)) := by
  have ha : ¬ (is_ASCII b.val = true) := fun h => h7 ((is_ASCII_iff b.val).1 h)
  have hn1 : ¬ (fc.length ≤ i + (nth_bit b.val 6 + nth_bit b.val 5 + nth_bit b.val 4)) := by
    omega
  rw [to_unicode_values.body, read_byte_of_getElem? hb]
  simp only [ha, Bool.false_eq_true, if_false, ge_iff_le, hn1]

theorem iterate_done {fc : List Byte} {i : Nat} (fuel : Nat) (values : List Nat)
    (h : fc.length ≤ i) :
    to_unicode_values.iterate fc fuel values i = some (.ok (values, i)) := by
  cases fuel <;> simp [to_unicode_values.iterate, Nat.not_lt.2 h]

theorem iterate_succ {fc : List Byte} {i : Nat} (fuel : Nat) (values : List Nat)
    (h : i < fc.length) :
    to_unicode_values.iterate fc (fuel + 1) values i
      = match to_unicode_values.body fc values i with
        | .error e => some (.error e)
        | .ok (values1, index1) => to_unicode_values.iterate fc fuel values1 index1 := by
  rw [to_unicode_values.iterate, if_pos h]

/-- With `|fc| - i` iterations or more, the iteration started at cursor `i`
finishes; its values are those of the loop, and a final state has its cursor at
`|fc|` when `i ≤ |fc|`. -/
theorem iterate_spec (fc : List Byte) :
    ∀ i values fuel, fc.length - i ≤ fuel →
      ∃ r, to_unicode_values.iterate fc fuel values i = some r ∧
        Except.map Prod.fst r = to_unicode_values.loop fc values i ∧
        (i ≤ fc.length → ∀ st, r = .ok st → st.2 = fc.length) := by
  refine loop_cases_induct fc
    (fun i => ∀ values fuel, fc.length - i ≤ fuel →
      ∃ r, to_unicode_values.iterate fc fuel values i = some r ∧
        Except.map Prod.fst r = to_unicode_values.loop fc values i ∧
        (i ≤ fc.length → ∀ st, r = .ok st → st.2 = fc.length)) ?_ ?_ ?_ ?_
  · intro i hi values fuel _
    refine ⟨.ok (values, i), iterate_done fuel values hi, ?_, ?_⟩
    · rw [loop_done values hi]; rfl
    · intro hle st hst
      cases hst
      exact Nat.le_antisymm hle hi
  · intro i b hb h7 ih values fuel hfuel
    have hlt : i < fc.length := by
      by_contra hc
      rw [List.getElem?_eq_none (by omega)] at hb
      cases hb
    obtain ⟨f, rfl⟩ : ∃ f, fuel = f + 1 := ⟨fuel - 1, by omega⟩
    obtain ⟨r, hr, hmap, hcur⟩ := ih (values ++ [b.val]) f (by omega)
    refine ⟨r, ?_, ?_, fun _ => hcur (by omega)⟩
    · rw [iterate_succ f values hlt, body_ascii values hb h7]
      exact hr
    · rw [loop_ascii values hb h7]
      exact hmap
  · intro i b hb h7 hn values fuel hfuel
    have hlt : i < fc.length := by
      by_contra hc
      rw [List.getElem?_eq_none (by omega)] at hb
      cases hb
    obtain ⟨f, rfl⟩ : ∃ f, fuel = f + 1 := ⟨fuel - 1, by omega⟩
    refine ⟨.error (.length_error i), ?_, ?_, ?_⟩
    · rw [iterate_succ f values hlt, body_truncated values hb h7 hn]
    · rw [loop_truncated values hb h7 hn]; rfl
    · intro _ st hst
      cases hst
  · intro i b hb h7 hn ih values fuel hfuel
    have hlt : i < fc.length := by omega
    obtain ⟨f, rfl⟩ : ∃ f, fuel = f + 1 := ⟨fuel - 1, by omega⟩
    rw [iterate_succ f values hlt, body_lead values hb h7 hn, loop_lead values hb h7 hn]
    cases add_char fc values i b.val
        (nth_bit b.val 6 + nth_bit b.val 5 + nth_bit b.val 4) with
    | error e =>
      refine ⟨.error e, rfl, rfl, ?_⟩
      intro _ st hst
      cases hst
    | ok v =>
      obtain ⟨r, hr, hmap, hcur⟩ := ih v f (by omega)
      exact ⟨r, hr, hmap, fun _ => hcur (by omega)⟩

/-- An iteration that does not fail moves the cursor forward, by 1 on an ASCII
byte and by the count plus 1 on a lead byte, and not past the end. -/
theorem body_advance (fc : List Byte) (values : List Nat) (i : Nat) (st : List Nat × Nat)
    (hi : i < fc.length) (h : to_unicode_values.body fc values i = .ok st) :
    ∃ b, fc[i]? = some b ∧
      (nth_bit b.val 7 = 0 → st.2 = i + 1) ∧
      (nth_bit b.val 7 = 1 →
        st.2 = i + (nth_bit b.val 6 + nth_bit b.val 5 + nth_bit b.val 4 + 1)) ∧
      i < st.2 ∧ st.2 ≤ fc.length ∧ fc.length - st.2 < fc.length - i := by
  have hb : fc[i]? = some (fc.get ⟨i, hi⟩) := by
    simp [List.getElem?_eq_getElem hi]
  refine ⟨fc.get ⟨i, hi⟩, hb, ?_⟩
  by_cases h7 : nth_bit (fc.get ⟨i, hi⟩).val 7 = 0
  · rw [body_ascii values hb h7] at h
    cases h
    refine ⟨fun _ => rfl, fun h1 => by omega, ?_, ?_, ?_⟩ <;> simp only [] <;> omega
  · by_cases hn : fc.length ≤ i + (nth_bit (fc.get ⟨i, hi⟩).val 6
        + nth_bit (fc.get ⟨i, hi⟩).val 5 + nth_bit (fc.get ⟨i, hi⟩).val 4)
    · rw [body_truncated values hb h7 hn] at h
      cases h
    · rw [body_lead values hb h7 (by omega)] at h
      cases hadd : add_char fc values i (fc.get ⟨i, hi⟩).val
          (nth_bit (fc.get ⟨i, hi⟩).val 6 + nth_bit (fc.get ⟨i, hi⟩).val 5
            + nth_bit (fc.get ⟨i, hi⟩).val 4) with
      | error e => rw [hadd] at h; cases h
      | ok v =>
        rw [hadd] at h
        cases h
        refine ⟨fun h0 => absurd h0 h7, fun _ => rfl, ?_, ?_, ?_⟩ <;> simp only [] <;> omega

/-- Claim C12. On every buffer: an iteration of the loop body that does not
fail moves the cursor strictly forward, by exactly 1 on an ASCII byte and by
exactly `bit6 + bit5 + bit4 + 1` on a lead byte, never past the end, so
`|fc| - cursor` strictly decreases (the measure of the well-founded recursion
that defines `to_unicode_values.loop`); `|fc| - 3` iterations are always enough
for the loop to finish, with the result of `to_unicode_values`; and when a
buffer of at least 3 bytes decodes, the final cursor is exactly `|fc|`. -/
theorem C12_loop_terminates (fc : List Byte) :
    (∀ values i st, i < fc.length → to_unicode_values.body fc values i = .ok st →
      ∃ b, fc[i]? = some b ∧
        (nth_bit b.val 7 = 0 → st.2 = i + 1) ∧
        (nth_bit b.val 7 = 1 →
          st.2 = i + (nth_bit b.val 6 + nth_bit b.val 5 + nth_bit b.val 4 + 1)) ∧
        i < st.2 ∧ st.2 ≤ fc.length ∧ fc.length - st.2 < fc.length - i) ∧
    (∃ r, to_unicode_values.iterate fc (fc.length - 3) [] 3 = some r ∧
      Except.map Prod.fst r = to_unicode_values fc) ∧
    (3 ≤ fc.length → ∀ out, to_unicode_values fc = .ok out →
      to_unicode_values.iterate fc (fc.length - 3) [] 3 = some (.ok (out, fc.length))) := by
  refine ⟨fun values i st hi h => body_advance fc values i st hi h, ?_, ?_⟩
  · obtain ⟨r, hr, hmap, _⟩ := iterate_spec fc 3 [] (fc.length - 3) (Nat.le_refl _)
    exact ⟨r, hr, hmap⟩
  · intro h3 out hout
    obtain ⟨r, hr, hmap, hcur⟩ := iterate_spec fc 3 [] (fc.length - 3) (Nat.le_refl _)
    unfold to_unicode_values at hout
    rw [hout] at hmap
    cases r with
    | error e => cases hmap
    | ok st =>
      have h2 := hcur h3 st rfl
      obtain ⟨vs, c⟩ := st
      simp only [Except.map, Except.ok.injEq] at hmap
      simp only [] at h2
      rw [hr, hmap, h2]

/-- Witness for C12: on `EF BB BF C3 A9` the iteration at cursor 3 reads the
lead byte `C3` (count 1) and moves the cursor to 5, the buffer length, where the
decode ends. -/
theorem C12_loop_terminates_witness :
    (∃ b, [(0xEF : Byte), 0xBB, 0xBF, 0xC3, 0xA9][3]? = some b ∧
      (nth_bit b.val 7 = 0 → ((([0xE9], 5) : List Nat × Nat)).2 = 3 + 1) ∧
      (nth_bit b.val 7 = 1 →
        ((([0xE9], 5) : List Nat × Nat)).2
          = 3 + (nth_bit b.val 6 + nth_bit b.val 5 + nth_bit b.val 4 + 1)) ∧
      3 < ((([0xE9], 5) : List Nat × Nat)).2 ∧
      ((([0xE9], 5) : List Nat × Nat)).2 ≤ [(0xEF : Byte), 0xBB, 0xBF, 0xC3, 0xA9].length ∧
      [(0xEF : Byte), 0xBB, 0xBF, 0xC3, 0xA9].length - ((([0xE9], 5) : List Nat × Nat)).2
        < [(0xEF : Byte), 0xBB, 0xBF, 0xC3, 0xA9].length - 3) ∧
    to_unicode_values.iterate [0xEF, 0xBB, 0xBF, 0xC3, 0xA9]
        ([(0xEF : Byte), 0xBB, 0xBF, 0xC3, 0xA9].length - 3) [] 3
      = some (.ok ([0xE9], [(0xEF : Byte), 0xBB, 0xBF, 0xC3, 0xA9].length)) :=
  ⟨(C12_loop_terminates [0xEF, 0xBB, 0xBF, 0xC3, 0xA9]).1 [] 3 ([0xE9], 5) (by decide)
      (by rfl),
   (C12_loop_terminates [0xEF, 0xBB, 0xBF, 0xC3, 0xA9]).2.2 (by decide) [0xE9]
      (by
        unfold to_unicode_values
        rw [@loop_seq1 _ 3 0xC3 0xA9 [] rfl (by decide) (by decide) rfl,
          loop_done _ (by decide)]
        rfl)⟩

/-! ## Reads stay inside the buffer -/

theorem read_byte_error_iff (fc : List Byte) (j : Nat) :
    (∃ e, read_byte fc j = .error e) ↔ fc.length ≤ j := by
  constructor
  · rintro ⟨e, he⟩
    by_contra hc
    rw [read_byte_of_lt (by omega)] at he
    cases he
  · intro h
    exact ⟨.out_of_range j, by simp [read_byte, List.getElem?_eq_none h]⟩

/-- Called inside the bounds check, `add_char` never reads outside the buffer,
whatever the count. -/
theorem add_char_no_out_of_range {fc : List Byte} {i n : Nat} (values : List Nat) (c : Nat)
    (hn : i + n < fc.length) (j : Nat) :
    add_char fc values i c n ≠ .error (.out_of_range j) := by
  match n, hn with
  | 0, _ => simp [add_char]
  | 1, hn =>
    rw [add_char_one values c (List.getElem?_eq_getElem (by omega))]
    exact fun h => nomatch h
  | 2, hn =>
    rw [add_char_two values c (List.getElem?_eq_getElem (by omega))
      (List.getElem?_eq_getElem (by omega))]
    exact fun h => nomatch h
  | 3, hn =>
    rw [add_char_three values c (List.getElem?_eq_getElem (by omega))
      (List.getElem?_eq_getElem (by omega)) (List.getElem?_eq_getElem (by omega))]
    exact fun h => nomatch h
  | n + 4, _ => simp [add_char]

/-- An iteration run under the loop condition never reads outside the buffer. -/
theorem body_no_out_of_range (fc : List Byte) (values : List Nat) (i j : Nat)
    (hi : i < fc.length) :
    to_unicode_values.body fc values i ≠ .error (.out_of_range j) := by
  have hb : fc[i]? = some (fc.get ⟨i, hi⟩) := by
    simp [List.getElem?_eq_getElem hi]
  by_cases h7 : nth_bit (fc.get ⟨i, hi⟩).val 7 = 0
  · rw [body_ascii values hb h7]
    exact fun h => nomatch h
  · by_cases hn : fc.length ≤ i + (nth_bit (fc.get ⟨i, hi⟩).val 6
        + nth_bit (fc.get ⟨i, hi⟩).val 5 + nth_bit (fc.get ⟨i, hi⟩).val 4)
    · rw [body_truncated values hb h7 hn]
      exact fun h => nomatch h
    · rw [body_lead values hb h7 (by omega)]
      have hno := @add_char_no_out_of_range fc i _ values (fc.get ⟨i, hi⟩).val
        (show i + (nth_bit (fc.get ⟨i, hi⟩).val 6 + nth_bit (fc.get ⟨i, hi⟩).val 5
          + nth_bit (fc.get ⟨i, hi⟩).val 4) < fc.length by omega) j
      cases hadd : add_char fc values i (fc.get ⟨i, hi⟩).val
          (nth_bit (fc.get ⟨i, hi⟩).val 6 + nth_bit (fc.get ⟨i, hi⟩).val 5
            + nth_bit (fc.get ⟨i, hi⟩).val 4) with
      | error e =>
        rw [hadd] at hno
        intro h
        cases h
        exact hno rfl
      | ok v => exact fun h => nomatch h

/-- Claim C13. On every buffer: a read fails exactly when its index is not below
the buffer length; an iteration run under the loop condition `cursor < |fc|`,
which reads the byte at the cursor, never reads outside the buffer; under the
bounds check `index + number_of_bytes < |fc|` every continuation read
`index + k`, `1 ≤ k ≤ number_of_bytes`, succeeds and `add_char` does not read
outside; `add_char` depends on no byte other than those at `index + k`,
`1 ≤ k ≤ number_of_bytes`; and `to_unicode_values` never ends in the
out-of-bounds branch. -/
theorem C13_reads_in_bounds (fc : List Byte) :
    (∀ j, (∃ e, read_byte fc j = .error e) ↔ fc.length ≤ j) ∧
    (∀ values i j, i < fc.length →
      (∃ x, read_byte fc i = .ok x) ∧
        to_unicode_values.body fc values i ≠ .error (.out_of_range j)) ∧
    (∀ values i c n, i + n < fc.length →
      (∀ k, 1 ≤ k → k ≤ n → ∃ x, read_byte fc (i + k) = .ok x) ∧
        ∀ j, add_char fc values i c n ≠ .error (.out_of_range j)) ∧
    (∀ fc2 : List Byte, ∀ values i c n,
      (∀ k, 1 ≤ k → k ≤ n → fc[i + k]? = fc2[i + k]?) →
        add_char fc values i c n = add_char fc2 values i c n) ∧
    (∀ j, to_unicode_values fc ≠ .error (.out_of_range j)) := by
  refine ⟨read_byte_error_iff fc, ?_, ?_, ?_, ?_⟩
  · intro values i j hi
    exact ⟨⟨_, read_byte_of_lt hi⟩, body_no_out_of_range fc values i j hi⟩
  · intro values i c n hn
    exact ⟨fun k _ hk => ⟨_, read_byte_of_lt (show i + k < fc.length by omega)⟩,
      add_char_no_out_of_range values c hn⟩
  · intro fc2 values i c n h
    exact add_char_congr values c h
  · intro j h
    rcases loop_error_kinds fc 3 [] _ h with h0 | ⟨k, hk⟩
    · cases h0
    · cases hk

/-- Witness for C13: on `EF BB BF E2 82 AC` the iteration at cursor 3 calls
`add_char` with count 2, which reads offsets 4 and 5 only; changing the prefix
bytes does not change its result. -/
theorem C13_reads_in_bounds_witness :
    ((∃ x, read_byte [0xEF, 0xBB, 0xBF, 0xE2, 0x82, 0xAC] 3 = .ok x) ∧
      to_unicode_values.body [0xEF, 0xBB, 0xBF, 0xE2, 0x82, 0xAC] [] 3
        ≠ .error (.out_of_range 4)) ∧
    ((∀ k, 1 ≤ k → k ≤ 2 → ∃ x, read_byte [0xEF, 0xBB, 0xBF, 0xE2, 0x82, 0xAC] (3 + k) = .ok x) ∧
      ∀ j, add_char [0xEF, 0xBB, 0xBF, 0xE2, 0x82, 0xAC] [] 3 0xE2 2
        ≠ .error (.out_of_range j)) ∧
    add_char [0xEF, 0xBB, 0xBF, 0xE2, 0x82, 0xAC] [] 3 0xE2 2
      = add_char [0x00, 0x00, 0x00, 0x00, 0x82, 0xAC] [] 3 0xE2 2 :=
  ⟨(C13_reads_in_bounds [0xEF, 0xBB, 0xBF, 0xE2, 0x82, 0xAC]).2.1 [] 3 4 (by decide),
   (C13_reads_in_bounds [0xEF, 0xBB, 0xBF, 0xE2, 0x82, 0xAC]).2.2.1 [] 3 0xE2 2 (by decide),
   (C13_reads_in_bounds [0xEF, 0xBB, 0xBF, 0xE2, 0x82, 0xAC]).2.2.2.1
      [0x00, 0x00, 0x00, 0x00, 0x82, 0xAC] [] 3 0xE2 2
      (by
        intro k hk1 hk2
        match k, hk1, hk2 with
        | 1, _, _ => rfl
        | 2, _, _ => rfl)⟩

/-! ## Concatenation -/

/-- The result of `add_char` is the same at another position of another buffer
that holds the same continuation bytes. -/
theorem add_char_shift {fc1 fc2 : List Byte} {i1 i2 n : Nat} (values : List Nat) (c : Nat)
    (h1 : i1 + n < fc1.length)
    (h : ∀ k, 1 ≤ k → k ≤ n → fc2[i2 + k]? = fc1[i1 + k]?) :
    add_char fc2 values i2 c n = add_char fc1 values i1 c n := by
  have key : ∀ k, 1 ≤ k → k ≤ n →
      ∃ x, fc1[i1 + k]? = some x ∧ fc2[i2 + k]? = some x := by
    intro k hk1 hkn
    have e1 : fc1[i1 + k]? = some (fc1.get ⟨i1 + k, by omega⟩) := by
      simp [List.getElem?_eq_getElem (show i1 + k < fc1.length by omega)]
    exact ⟨_, e1, (h k hk1 hkn).trans e1⟩
  match n, key with
  | 0, _ => simp [add_char]
  | 1, key =>
    obtain ⟨x1, ex1, ey1⟩ := key 1 (by omega) (by omega)
    rw [add_char_one values c ex1, add_char_one values c ey1]
  | 2, key =>
    obtain ⟨x1, ex1, ey1⟩ := key 1 (by omega) (by omega)
    obtain ⟨x2, ex2, ey2⟩ := key 2 (by omega) (by omega)
    rw [add_char_two values c ex1 ex2, add_char_two values c ey1 ey2]
  | 3, key =>
    obtain ⟨x1, ex1, ey1⟩ := key 1 (by omega) (by omega)
    obtain ⟨x2, ex2, ey2⟩ := key 2 (by omega) (by omega)
    obtain ⟨x3, ex3, ey3⟩ := key 3 (by omega) (by omega)
    rw [add_char_three values c ex1 ex2 ex3, add_char_three values c ey1 ey2 ey3]
  | n + 4, _ => simp [add_char]

/-- A successful run of the loop on `fc1` from cursor `i` is reproduced on a
buffer `fc2` that holds the same bytes `d` positions further. -/
theorem loop_shift_ok {fc1 fc2 : List Byte} (d k : Nat)
    (hlen : fc2.length = fc1.length + d)
    (hag : ∀ j, k ≤ j → fc2[j + d]? = fc1[j]?) :
    ∀ i, k ≤ i → ∀ values out, to_unicode_values.loop fc1 values i = .ok out →
      to_unicode_values.loop fc2 values (i + d) = .ok out := by
  refine loop_cases_induct fc1
    (fun i => k ≤ i → ∀ values out, to_unicode_values.loop fc1 values i = .ok out →
      to_unicode_values.loop fc2 values (i + d) = .ok out) ?_ ?_ ?_ ?_
  · intro i hi _ values out h
    rw [loop_done values hi] at h
    rw [loop_done values (by omega)]
    exact h
  · intro i b hb h7 ih hk values out h
    have hb2 : fc2[i + d]? = some b := (hag i hk).trans hb
    rw [loop_ascii values hb h7] at h
    rw [loop_ascii values hb2 h7, Nat.add_right_comm i d 1]
    exact ih (by omega) _ _ h
  · intro i b hb h7 hn _ values out h
    rw [loop_truncated values hb h7 hn] at h
    cases h
  · intro i b hb h7 hn ih hk values out h
    have hb2 : fc2[i + d]? = some b := (hag i hk).trans hb
    have hsh : add_char fc2 values (i + d) b.val
          (nth_bit b.val 6 + nth_bit b.val 5 + nth_bit b.val 4)
        = add_char fc1 values i b.val
          (nth_bit b.val 6 + nth_bit b.val 5 + nth_bit b.val 4) := by
      refine add_char_shift values b.val hn ?_
      intro j _ _
      rw [Nat.add_right_comm i d j]
      exact hag (i + j) (by omega)
    rw [loop_lead values hb h7 hn] at h
    rw [loop_lead values hb2 h7 (by omega), hsh]
    cases hadd : add_char fc1 values i b.val
        (nth_bit b.val 6 + nth_bit b.val 5 + nth_bit b.val 4) with
    | error e => rw [hadd] at h; cases h
    | ok v =>
      rw [hadd] at h
      simp only []
      rw [Nat.add_right_comm i d]
      exact ih (by omega) _ _ h

/-- A second small buffer that decodes: the prefix `EF BB BF` and `C3 A9`. -/
theorem decode_bom_C3_A9 : to_unicode_values [0xEF, 0xBB, 0xBF, 0xC3, 0xA9] = .ok [0xE9] := by
  unfold to_unicode_values
  rw [@loop_seq1 _ 3 0xC3 0xA9 [] rfl (by decide) (by decide) rfl, loop_done _ (by decide)]
  rfl

/-- Claim C14. Decoding distributes over concatenation after the prefix: if
`p ++ a` decodes to `xs` and `p ++ b` decodes to `ys`, then `p ++ a ++ b`
decodes to `xs ++ ys`. -/
theorem C14_concatenation (p a b : List Byte) (hp : p.length = 3) (xs ys : List Nat)
    (ha : to_unicode_values (p ++ a) = .ok xs) (hb : to_unicode_values (p ++ b) = .ok ys) :
    to_unicode_values (p ++ a ++ b) = .ok (xs ++ ys) := by
  unfold to_unicode_values at ha hb ⊢
  have hag : ∀ j, 3 ≤ j → (p ++ a ++ b)[j + a.length]? = (p ++ b)[j]? := by
    intro j hj
    rw [List.getElem?_append_right (by simp only [List.length_append]; omega),
      List.getElem?_append_right (by omega)]
    congr 1
    simp only [List.length_append]
    omega
  have hshift := loop_shift_ok a.length 3
    (by simp only [List.length_append]; omega) hag 3 (Nat.le_refl 3) [] ys hb
  have hlen : (p ++ a).length = 3 + a.length := by
    simp only [List.length_append]; omega
  rw [loop_append (p ++ a) b 3 (by omega) [] xs ha, hlen, loop_acc, hshift]
  rfl

/-- Witness for C14: `a = 41` and `b = C3 A9` after the prefix `EF BB BF`. -/
theorem C14_concatenation_witness :
    to_unicode_values ([0xEF, 0xBB, 0xBF] ++ [0x41] ++ [0xC3, 0xA9]) = .ok ([0x41] ++ [0xE9]) :=
  C14_concatenation [0xEF, 0xBB, 0xBF] [0x41] [0xC3, 0xA9] rfl [0x41] [0xE9]
    decode_bom_A decode_bom_C3_A9

/-! ## Lead bytes `F0..FF` -/

/-- Claim C15. After any 3-byte prefix, a lead byte in `0xF0..0xFF` followed by
any three bytes decodes to the single value
`((L & 0x1F) << 22) | ((b2 & 0x3F) << 18) | ((b3 & 0x3F) << 12) | (b4 & 0x3F)`. -/
theorem C15_lead_F0_to_FF (p : List Byte) (hp : p.length = 3) (L b2 b3 b4 : Byte)
    (hL : 0xF0 ≤ L.val) :
    to_unicode_values (p ++ [L, b2, b3, b4])
      = .ok [((L.val &&& 0x1F) <<< 22) ||| ((b2.val &&& 0x3F) <<< 18)
          ||| ((b3.val &&& 0x3F) <<< 12) ||| (b4.val &&& 0x3F)] := by
  have hnib : L.val >>> 4 = 15 := by
    have := L.isLt
    rw [Nat.shiftRight_eq_div_pow]
    norm_num
    omega
  obtain ⟨h4, h5, h6, h7⟩ := nth_bit_of_high_nibble hnib
  have e0 : (p ++ [L, b2, b3, b4])[3]? = some L := by
    simpa using getElem?_skip3 hp [L, b2, b3, b4] 0
  have e1 : (p ++ [L, b2, b3, b4])[3 + 1]? = some b2 := by
    simpa using getElem?_skip3 hp [L, b2, b3, b4] 1
  have e2 : (p ++ [L, b2, b3, b4])[3 + 2]? = some b3 := by
    simpa using getElem?_skip3 hp [L, b2, b3, b4] 2
  have e3 : (p ++ [L, b2, b3, b4])[3 + 3]? = some b4 := by
    simpa using getElem?_skip3 hp [L, b2, b3, b4] 3
  unfold to_unicode_values
  rw [loop_seq3 [] e0 (by omega) (by omega) e1 e2 e3, loop_done _ (by simp [hp])]
  simp

/-- Witness for C15: the bytes `F0 9F 98 80` after the prefix `EF BB BF`. -/
theorem C15_lead_F0_to_FF_witness :
    to_unicode_values ([0xEF, 0xBB, 0xBF] ++ [0xF0, 0x9F, 0x98, 0x80])
      = .ok [(((0xF0 : Byte).val &&& 0x1F) <<< 22) ||| (((0x9F : Byte).val &&& 0x3F) <<< 18)
          ||| (((0x98 : Byte).val &&& 0x3F) <<< 12) ||| ((0x80 : Byte).val &&& 0x3F)] :=
  C15_lead_F0_to_FF [0xEF, 0xBB, 0xBF] rfl 0xF0 0x9F 0x98 0x80 (by decide)

/-! ## Size of the values -/

theorem to_uint32_le (x : Nat) : to_uint32 x ≤ x :=
  Nat.mod_le x 4294967296

/-- Whatever `add_char` appends is below `2 ^ 27`. -/
theorem add_char_value_lt {fc : List Byte} {i n : Nat} {values out : List Nat} {c : Nat}
    (h : add_char fc values i c n = .ok out) :
    ∃ v, out = values ++ [v] ∧ v < 2 ^ 27 := by
  match n, h with
  | 0, h => simp [add_char] at h
  | 1, h =>
    simp only [add_char] at h
    cases h1 : read_byte fc (i + 1) with
    | error e => rw [h1] at h; cases h
    | ok c1 =>
      rw [h1] at h
      cases h
      have hle := to_uint32_le (((c &&& 31) <<< 6) ||| (c1 &&& 63))
      have hlt := assemble1_lt c c1
      exact ⟨_, rfl, by omega⟩
  | 2, h =>
    simp only [add_char] at h
    cases h1 : read_byte fc (i + 1) with
    | error e => rw [h1] at h; cases h
    | ok c1 =>
      cases h2 : read_byte fc (i + 2) with
      | error e => rw [h1, h2] at h; cases h
      | ok c2 =>
        rw [h1, h2] at h
        cases h
        have hle := to_uint32_le (((c &&& 31) <<< 16) ||| ((c1 &&& 63) <<< 12) ||| (c2 &&& 63))
        have hlt := assemble2_lt c c1 c2
        exact ⟨_, rfl, by omega⟩
  | 3, h =>
    simp only [add_char] at h
    cases h1 : read_byte fc (i + 1) with
    | error e => rw [h1] at h; cases h
    | ok c1 =>
      cases h2 : read_byte fc (i + 2) with
      | error e => rw [h1, h2] at h; cases h
      | ok c2 =>
        cases h3 : read_byte fc (i + 3) with
        | error e => rw [h1, h2, h3] at h; cases h
        | ok c3 =>
          rw [h1, h2, h3] at h
          cases h
          have hle := to_uint32_le (((c &&& 31) <<< 22) ||| ((c1 &&& 63) <<< 18)
            ||| ((c2 &&& 63) <<< 12) ||| (c3 &&& 63))
          have hlt := assemble3_lt c c1 c2 c3
          exact ⟨_, rfl, by omega⟩
  | n + 4, h => simp [add_char] at h

/-- The loop keeps all values below `2 ^ 27`. -/
theorem loop_values_lt (fc : List Byte) :
    ∀ i values, (∀ v ∈ values, v < 2 ^ 27) → ∀ out,
      to_unicode_values.loop fc values i = .ok out → ∀ v ∈ out, v < 2 ^ 27 := by
  refine loop_cases_induct fc
    (fun i => ∀ values, (∀ v ∈ values, v < 2 ^ 27) → ∀ out,
      to_unicode_values.loop fc values i = .ok out → ∀ v ∈ out, v < 2 ^ 27) ?_ ?_ ?_ ?_
  · intro i hi values hv out h
    rw [loop_done values hi] at h
    cases h
    exact hv
  · intro i b hb h7 ih values hv out h
    rw [loop_ascii values hb h7] at h
    refine ih _ ?_ out h
    intro v hmem
    rcases List.mem_append.1 hmem with h1 | h1
    · exact hv v h1
    · have hb256 := b.isLt
      rw [List.mem_singleton.1 h1]
      omega
  · intro i b hb h7 hn values _ out h
    rw [loop_truncated values hb h7 hn] at h
    cases h
  · intro i b hb h7 hn ih values hv out h
    rw [loop_lead values hb h7 hn] at h
    cases hadd : add_char fc values i b.val
        (nth_bit b.val 6 + nth_bit b.val 5 + nth_bit b.val 4) with
    | error e => rw [hadd] at h; cases h
    | ok vs1 =>
      rw [hadd] at h
      obtain ⟨w, rfl, hw⟩ := add_char_value_lt hadd
      refine ih _ ?_ out h
      intro v hmem
      rcases List.mem_append.1 hmem with h1 | h1
      · exact hv v h1
      · rw [List.mem_singleton.1 h1]
        exact hw

/-- Claim C16. Every value of a successful decode is below `2 ^ 27`; an ASCII
byte is below `2 ^ 7`; and in each case of `add_char` the assembled value is
below `2 ^ 11`, `2 ^ 21` and `2 ^ 27`, so the conversion to `uint32_t` changes
nothing and the value stored is the exact value of the shift-and-or
expression. -/
theorem C16_values_below_two_pow_27 (fc : List Byte) :
    (∀ out, to_unicode_values fc = .ok out → ∀ v ∈ out, v < 2 ^ 27) ∧
    (∀ b : Byte, nth_bit b.val 7 = 0 → to_uint32 b.val = b.val ∧ b.val < 2 ^ 7) ∧
    (∀ values i c, ∀ b1 : Byte, fc[i + 1]? = some b1 →
      to_uint32 (((c &&& 0x1F) <<< 6) ||| (b1.val &&& 0x3F))
          = ((c &&& 0x1F) <<< 6) ||| (b1.val &&& 0x3F) ∧
        ((c &&& 0x1F) <<< 6) ||| (b1.val &&& 0x3F) < 2 ^ 11 ∧
        add_char fc values i c 1
          = .ok (values ++ [((c &&& 0x1F) <<< 6) ||| (b1.val &&& 0x3F)])) ∧
    (∀ values i c, ∀ b1 b2 : Byte, fc[i + 1]? = some b1 → fc[i + 2]? = some b2 →
      to_uint32 (((c &&& 0x1F) <<< 16) ||| ((b1.val &&& 0x3F) <<< 12) ||| (b2.val &&& 0x3F))
          = ((c &&& 0x1F) <<< 16) ||| ((b1.val &&& 0x3F) <<< 12) ||| (b2.val &&& 0x3F) ∧
        ((c &&& 0x1F) <<< 16) ||| ((b1.val &&& 0x3F) <<< 12) ||| (b2.val &&& 0x3F) < 2 ^ 21 ∧
        add_char fc values i c 2
          = .ok (values ++ [((c &&& 0x1F) <<< 16) ||| ((b1.val &&& 0x3F) <<< 12)
              ||| (b2.val &&& 0x3F)])) ∧
    (∀ values i c, ∀ b1 b2 b3 : Byte,
      fc[i + 1]? = some b1 → fc[i + 2]? = some b2 → fc[i + 3]? = some b3 →
      to_uint32 (((c &&& 0x1F) <<< 22) ||| ((b1.val &&& 0x3F) <<< 18)
            ||| ((b2.val &&& 0x3F) <<< 12) ||| (b3.val &&& 0x3F))
          = ((c &&& 0x1F) <<< 22) ||| ((b1.val &&& 0x3F) <<< 18)
            ||| ((b2.val &&& 0x3F) <<< 12) ||| (b3.val &&& 0x3F) ∧
        ((c &&& 0x1F) <<< 22) ||| ((b1.val &&& 0x3F) <<< 18)
            ||| ((b2.val &&& 0x3F) <<< 12) ||| (b3.val &&& 0x3F) < 2 ^ 27 ∧
        add_char fc values i c 3
          = .ok (values ++ [((c &&& 0x1F) <<< 22) ||| ((b1.val &&& 0x3F) <<< 18)
              ||| ((b2.val &&& 0x3F) <<< 12) ||| (b3.val &&& 0x3F)])) := by
  refine ⟨?_, ?_, ?_, ?_, ?_⟩
  · intro out h
    exact loop_values_lt fc 3 [] (fun v hv => nomatch hv) out h
  · intro b h7
    have h := (is_ASCII_iff_lt b).1 ((is_ASCII_iff b.val).2 h7)
    exact ⟨to_uint32_byte b, by omega⟩
  · intro values i c b1 h1
    have hlt := assemble1_lt c b1.val
    exact ⟨to_uint32_of_lt (by omega), hlt, add_char_one values c h1⟩
  · intro values i c b1 b2 h1 h2
    have hlt := assemble2_lt c b1.val b2.val
    exact ⟨to_uint32_of_lt (by omega), hlt, add_char_two values c h1 h2⟩
  · intro values i c b1 b2 b3 h1 h2 h3
    have hlt := assemble3_lt c b1.val b2.val b3.val
    exact ⟨to_uint32_of_lt (by omega), hlt, add_char_three values c h1 h2 h3⟩

/-- Witness for C16: the buffer `EF BB BF C3 A9`, its value `0xE9`, the ASCII
byte `41` and the call of `add_char` with count 1 at cursor 3. -/
theorem C16_values_below_two_pow_27_witness :
    (∀ v ∈ [0xE9], v < 2 ^ 27) ∧
    (to_uint32 (0x41 : Byte).val = (0x41 : Byte).val ∧ (0x41 : Byte).val < 2 ^ 7) ∧
    (to_uint32 (((0xC3 &&& 0x1F) <<< 6) ||| ((0xA9 : Byte).val &&& 0x3F))
        = ((0xC3 &&& 0x1F) <<< 6) ||| ((0xA9 : Byte).val &&& 0x3F) ∧
      ((0xC3 &&& 0x1F) <<< 6) ||| ((0xA9 : Byte).val &&& 0x3F) < 2 ^ 11 ∧
      add_char [0xEF, 0xBB, 0xBF, 0xC3, 0xA9] [] 3 0xC3 1
        = .ok ([] ++ [((0xC3 &&& 0x1F) <<< 6) ||| ((0xA9 : Byte).val &&& 0x3F)])) :=
  ⟨(C16_values_below_two_pow_27 [0xEF, 0xBB, 0xBF, 0xC3, 0xA9]).1 [0xE9] decode_bom_C3_A9,
   (C16_values_below_two_pow_27 [0xEF, 0xBB, 0xBF, 0xC3, 0xA9]).2.1 0x41 (by decide),
   (C16_values_below_two_pow_27 [0xEF, 0xBB, 0xBF, 0xC3, 0xA9]).2.2.1 [] 3 0xC3 0xA9 rfl⟩

/-! ## Values of sequences with 3 continuation bytes -/

theorem le_or_left (x y : Nat) : x ≤ x ||| y :=
  Nat.le_of_testBit (fun i h => by simp [h])

/-- With bit 4 of the lead byte set, the 22/18/12/0 assembly is at least
`2 ^ 26`. -/
theorem assemble3_ge (c c1 c2 c3 : Nat) (h4 : nth_bit c 4 = 1) :
    2 ^ 26 ≤ ((c &&& 31) <<< 22) ||| ((c1 &&& 63) <<< 18) ||| ((c2 &&& 63) <<< 12)
      ||| (c3 &&& 63) := by
  have hmask : c &&& 31 = c % 32 := Nat.and_pow_two_sub_one_eq_mod c 5
  rw [nth_bit_eq_div_mod] at h4
  norm_num at h4
  have h16 : 16 ≤ c &&& 31 := by omega
  have hsh : 2 ^ 26 ≤ (c &&& 31) <<< 22 := by
    rw [Nat.shiftLeft_eq]; omega
  have a1 := le_or_left ((c &&& 31) <<< 22) ((c1 &&& 63) <<< 18)
  have a2 := le_or_left (((c &&& 31) <<< 22) ||| ((c1 &&& 63) <<< 18)) ((c2 &&& 63) <<< 12)
  have a3 := le_or_left
    (((c &&& 31) <<< 22) ||| ((c1 &&& 63) <<< 18) ||| ((c2 &&& 63) <<< 12)) (c3 &&& 63)
  omega

/-- With count 3 and bit 4 of the lead byte set, what `add_char` appends is at
least `2 ^ 26`. -/
theorem add_char_three_ge {fc : List Byte} {i : Nat} {values out : List Nat} {c : Nat}
    (h4 : nth_bit c 4 = 1) (h : add_char fc values i c 3 = .ok out) :
    ∃ v, out = values ++ [v] ∧ 67108864 ≤ v := by
  simp only [add_char] at h
  cases h1 : read_byte fc (i + 1) with
  | error e => rw [h1] at h; cases h
  | ok c1 =>
    cases h2 : read_byte fc (i + 2) with
    | error e => rw [h1, h2] at h; cases h
    | ok c2 =>
      cases h3 : read_byte fc (i + 3) with
      | error e => rw [h1, h2, h3] at h; cases h
      | ok c3 =>
        rw [h1, h2, h3] at h
        cases h
        have hlt := assemble3_lt c c1 c2 c3
        have hge := assemble3_ge c c1 c2 c3 h4
        refine ⟨_, rfl, ?_⟩
        rw [to_uint32_of_lt (by omega)]
        omega

theorem loop_ok_extends (fc : List Byte) (values : List Nat) (i : Nat) (out : List Nat)
    (h : to_unicode_values.loop fc values i = .ok out) : ∃ rest, out = values ++ rest := by
  rw [loop_acc] at h
  cases hl : to_unicode_values.loop fc [] i with
  | error e => rw [hl] at h; cases h
  | ok rest =>
    rw [hl] at h
    simp only [Except.map, Except.ok.injEq] at h
    exact ⟨rest, h.symm⟩

theorem bit4_of_sum_three {c : Nat}
    (h : nth_bit c 6 + nth_bit c 5 + nth_bit c 4 = 3) : nth_bit c 4 = 1 := by
  have h6 := nth_bit_le_one c 6
  have h5 := nth_bit_le_one c 5
  have h4 := nth_bit_le_one c 4
  omega

/-- Claim C17. A value that comes from a lead byte with bit 7 set and
`bit6 + bit5 + bit4 = 3` is at least `2 ^ 26 = 67108864`, hence above
`0x10FFFF`: in every iteration of the loop body on such a byte that does not
fail, exactly one value is appended and it is that large; and when `s` decodes
to `out` and `s ++ [L] ++ t` decodes, its output is `out`, then one such value,
then the rest. -/
theorem C17_count_three_values_large (fc : List Byte) :
    (∀ values i st, ∀ b : Byte, fc[i]? = some b → nth_bit b.val 7 = 1 →
      nth_bit b.val 6 + nth_bit b.val 5 + nth_bit b.val 4 = 3 →
      to_unicode_values.body fc values i = .ok st →
      ∃ v, st.1 = values ++ [v] ∧ 67108864 ≤ v ∧ 0x10FFFF < v) ∧
    (∀ s t : List Byte, ∀ L : Byte, ∀ out out1 : List Nat,
      fc = s ++ [L] ++ t → 3 ≤ s.length → to_unicode_values s = .ok out →
      nth_bit L.val 7 = 1 → nth_bit L.val 6 + nth_bit L.val 5 + nth_bit L.val 4 = 3 →
      to_unicode_values fc = .ok out1 →
      ∃ v rest, out1 = out ++ [v] ++ rest ∧ 67108864 ≤ v ∧ 0x10FFFF < v) := by
  constructor
  · intro values i st b hb h7 h3 h
    have h7ne : nth_bit b.val 7 ≠ 0 := by omega
    by_cases hn : fc.length ≤ i + (nth_bit b.val 6 + nth_bit b.val 5 + nth_bit b.val 4)
    · rw [body_truncated values hb h7ne hn] at h
      cases h
    · rw [body_lead values hb h7ne (by omega), h3] at h
      cases hadd : add_char fc values i b.val 3 with
      | error e => rw [hadd] at h; cases h
      | ok vs1 =>
        rw [hadd] at h
        cases h
        obtain ⟨v, hv, hge⟩ := add_char_three_ge (bit4_of_sum_three h3) hadd
        exact ⟨v, hv, hge, by omega⟩
  · intro s t L out out1 hfc hs hout h7 h3 h
    subst hfc
    have h7ne : nth_bit L.val 7 ≠ 0 := by omega
    have hcur := loop_after_decoded hs hout L [] t
    have hb := getElem?_lead s L [] t
    rw [List.append_nil] at hcur hb
    rw [hcur] at h
    by_cases hn : (s ++ [L] ++ t).length
        ≤ s.length + (nth_bit L.val 6 + nth_bit L.val 5 + nth_bit L.val 4)
    · rw [loop_truncated out hb h7ne hn] at h
      cases h
    · rw [loop_lead out hb h7ne (by omega), h3] at h
      cases hadd : add_char (s ++ [L] ++ t) out s.length L.val 3 with
      | error e => rw [hadd] at h; cases h
      | ok vs1 =>
        rw [hadd] at h
        obtain ⟨v, hv, hge⟩ := add_char_three_ge (bit4_of_sum_three h3) hadd
        obtain ⟨rest, hrest⟩ := loop_ok_extends _ _ _ _ h
        exact ⟨v, rest, by rw [hrest, hv], hge, by omega⟩

/-- A buffer with a lead byte of count 3: `EF BB BF 41 F0 9F 98 80`. -/
theorem decode_bom_A_F0 :
    to_unicode_values [0xEF, 0xBB, 0xBF, 0x41, 0xF0, 0x9F, 0x98, 0x80]
      = .ok [0x41, 0x47D8000] := by
  unfold to_unicode_values
  rw [@loop_ascii _ 3 0x41 [] rfl (by decide),
    @loop_seq3 _ (3 + 1) 0xF0 0x9F 0x98 0x80 _ rfl (by decide) (by decide) rfl rfl rfl,
    loop_done _ (by decide)]
  rfl

/-- Witness for C17: the iteration on the lead byte `F0` of `EF BB BF F0 9F 98 80`,
and the decode of `EF BB BF 41 F0 9F 98 80`, whose second value is `0x47D8000`. -/
theorem C17_count_three_values_large_witness :
    (∃ v, ((([0x47D8000], 7) : List Nat × Nat)).1 = [] ++ [v] ∧ 67108864 ≤ v ∧ 0x10FFFF < v) ∧
    (∃ v rest, [0x41, 0x47D8000] = [0x41] ++ [v] ++ rest ∧ 67108864 ≤ v ∧ 0x10FFFF < v) :=
  ⟨(C17_count_three_values_large [0xEF, 0xBB, 0xBF, 0xF0, 0x9F, 0x98, 0x80]).1 [] 3
      ([0x47D8000], 7) 0xF0 rfl (by decide) (by decide) (by rfl),
   (C17_count_three_values_large [0xEF, 0xBB, 0xBF, 0x41, 0xF0, 0x9F, 0x98, 0x80]).2
      [0xEF, 0xBB, 0xBF, 0x41] [0x9F, 0x98, 0x80] 0xF0 [0x41] [0x41, 0x47D8000] rfl
      (by decide) decode_bom_A (by decide) (by decide) decode_bom_A_F0⟩

/-! ## The 16/12/0 assembly is not injective -/

/-- Claim C18. The 16/12/0 assembly is not injective: after the prefix
`EF BB BF`, the sequences `E1 80 80` and `E0 90 80`, both with bit 7 set and
`bit6 + bit5 + bit4 = 2`, have different masked fields, `(1, 0, 0)` and
`(0, 16, 0)`, and decode to the same single value `0x10000`: bit 16 is reached
by the lead field shifted by 16 and by the first continuation field shifted by
12. -/
theorem C18_assembly_not_injective :
    ∃ (p : List Byte) (L b2 b3 L' b2' b3' : Byte),
      p.length = 3 ∧
      nth_bit L.val 7 = 1 ∧ nth_bit L'.val 7 = 1 ∧
      nth_bit L.val 6 + nth_bit L.val 5 + nth_bit L.val 4 = 2 ∧
      nth_bit L'.val 6 + nth_bit L'.val 5 + nth_bit L'.val 4 = 2 ∧
      (L.val &&& 0x1F, b2.val &&& 0x3F, b3.val &&& 0x3F)
        ≠ (L'.val &&& 0x1F, b2'.val &&& 0x3F, b3'.val &&& 0x3F) ∧
      ∃ v, to_unicode_values (p ++ [L, b2, b3]) = .ok [v] ∧
        to_unicode_values (p ++ [L', b2', b3']) = .ok [v] := by
  refine ⟨[0xEF, 0xBB, 0xBF], 0xE1, 0x80, 0x80, 0xE0, 0x90, 0x80, rfl, by decide, by decide,
    by decide, by decide, by decide, 0x10000, ?_, ?_⟩
  · unfold to_unicode_values
    rw [@loop_seq2 _ 3 0xE1 0x80 0x80 [] rfl (by decide) (by decide) rfl rfl,
      loop_done _ (by decide)]
    rfl
  · unfold to_unicode_values
    rw [@loop_seq2 _ 3 0xE0 0x90 0x80 [] rfl (by decide) (by decide) rfl rfl,
      loop_done _ (by decide)]
    rfl

end EncodingParser
